import Mathlib

/-!
Verification of the IMASPy data-access engine (imaspy/ids_struct_array.py,
imaspy/ids_toplevel.py, imaspy/ids_defs.py, imaspy/util.py) against its
natural-language specification.

The Python source is shallowly embedded: in-place mutation of `self.value`
becomes explicit state passing, raised exceptions become `Except` errors
whose payload carries the state visible at the moment of the raise, and the
process-wide `context_store` dictionary becomes an association list that is
threaded through the backend protocol functions.  Backend (UAL) calls are
opaque: their statuses and returned handles/sizes are parameters of the
embedded functions, and every issued backend call is recorded in a trace.
-/

/-! ## Constants from imaspy/ids_defs.py -/

def EMPTY_INT : Int := -999999999

def IDS_TIME_MODE_UNKNOWN : Int := EMPTY_INT

def IDS_TIME_MODE_HETEROGENEOUS : Int := 0

def IDS_TIME_MODE_HOMOGENEOUS : Int := 1

def IDS_TIME_MODE_INDEPENDENT : Int := 2

def IDS_TIME_MODES : List Int := [0, 1, 2]

/-- Opaque backend operation-mode tag (`READ_OP` from `imas.imasdef`). -/
def READ_OP : Nat := 0

/-- Opaque backend operation-mode tag (`WRITE_OP` from `imas.imasdef`). -/
def WRITE_OP : Nat := 1

/-! ## IDSStructArray.append / IDSStructArray.resize (imaspy/ids_struct_array.py)

`self.value` is the ordered list of element structures; elements are an
abstract type `α`.  `self.metadata.maxoccur` is `Option Nat` (`none` when the
descriptor has no maximum-occurrence attribute).  The Python guard
`if self.metadata.maxoccur and ...` tests truthiness, so a stored bound of
`0` behaves like no bound at all; `maxoccurTruthy` models that test. -/

def maxoccurTruthy : Option Nat → Bool
  | none => false
  | some m => m != 0

namespace IDSStructArray

/-- Embeds `IDSStructArray.append`, lines 100-128 of ids_struct_array.py.
Python wraps a non-list argument into a one-element list; the embedding
takes the element list directly.  Elements are appended one at a time by
mutating `self.value`; before each element the code checks
`if self.metadata.maxoccur and len(self.value) >= self.metadata.maxoccur`
and raises `RuntimeError` if it holds.  The `.error` payload is the value of
`self.value` at the moment of the raise (the elements appended so far are
kept, because the list was mutated in place). -/
def append (maxoccur : Option Nat) (value : List α) : List α → Except (List α) (List α)
  | [] => .ok value
  | e :: es =>
    if maxoccurTruthy maxoccur && decide (maxoccur.getD 0 ≤ value.length) then
      .error value
    else
      append maxoccur (value ++ [e]) es

/-- The three exception kinds `IDSStructArray.resize` can raise:
`RuntimeError` from the max-occurrence check inside `append`, and the two
`NotImplementedError`s for shrinking and for `nbelt == cur` with
`keep=False`. -/
inductive ResizeErr where
  | maxOccur
  | shrink
  | overwrite
  deriving DecidableEq, Repr

/-- Embeds `IDSStructArray.resize`, lines 130-163 of ids_struct_array.py.
`tmpl` is the value produced by the `_element_structure` template property
(a fresh empty element).  Execution order matches the source: with
`keep=False` the list is first cleared (`self.value = []`), then `cur` is
taken; growing goes through `append` (so the max-occurrence check applies);
`nbelt < cur` raises `NotImplementedError` before any element is popped;
`nbelt == cur` with `keep=False` raises `NotImplementedError`.  The error
payload carries `self.value` as left behind by the raise. -/
def resize (maxoccur : Option Nat) (tmpl : α) (value : List α) (nbelt : Nat)
    (keep : Bool) : Except (ResizeErr × List α) (List α) :=
  let value := if !keep then [] else value
  let cur := value.length
  if nbelt > cur then
    match append maxoccur value (List.replicate (nbelt - cur) tmpl) with
    | .ok v => .ok v
    | .error part => .error (.maxOccur, part)
  else if nbelt < cur then
    .error (.shrink, value)
  else if !keep then
    .error (.overwrite, value)
  else
    .ok value

end IDSStructArray

/-! ### Lemmas about append -/

theorem IDSStructArray.append_none_ok {α : Type} (value : List α) (es : List α) :
    IDSStructArray.append none value es = .ok (value ++ es) := by
  induction es generalizing value with
  | nil => simp [IDSStructArray.append]
  | cons e es ih =>
    simp only [IDSStructArray.append, maxoccurTruthy, Bool.false_and, Bool.false_eq_true,
      if_false]
    rw [ih]
    simp

theorem IDSStructArray.append_ok_of_fits {α : Type} (m : Nat) (value es : List α)
    (h : value.length + es.length ≤ m) :
    IDSStructArray.append (some m) value es = .ok (value ++ es) := by
  induction es generalizing value with
  | nil => simp [IDSStructArray.append]
  | cons e es ih =>
    have hlt : value.length < m := by
      simp only [List.length_cons] at h
      omega
    have hguard : (maxoccurTruthy (some m) && decide ((some m).getD 0 ≤ value.length)) = false := by
      simp only [maxoccurTruthy, Option.getD_some]
      by_cases hm : m = 0
      · omega
      · simp only [Bool.and_eq_false_iff]
        right
        simpa using (by omega : ¬ m ≤ value.length)
    simp only [IDSStructArray.append, hguard, Bool.false_eq_true, if_false]
    have hfit : (value ++ [e]).length + es.length ≤ m := by
      simp at h ⊢
      omega
    rw [ih (value ++ [e]) hfit]
    simp

theorem IDSStructArray.append_error_of_overflow {α : Type} (m : Nat) (value es : List α)
    (hm : 1 ≤ m) (hc : value.length ≤ m) (hover : m < value.length + es.length) :
    IDSStructArray.append (some m) value es =
      .error (value ++ es.take (m - value.length)) := by
  induction es generalizing value with
  | nil =>
    simp only [List.length_nil, Nat.add_zero] at hover
    omega
  | cons e es ih =>
    by_cases hfull : value.length = m
    · have hguard : (maxoccurTruthy (some m) && decide ((some m).getD 0 ≤ value.length)) = true := by
        simp only [maxoccurTruthy, Option.getD_some, Bool.and_eq_true, bne_iff_ne,
          decide_eq_true_eq]
        omega
      simp only [IDSStructArray.append, hguard, if_true]
      have : m - value.length = 0 := by omega
      simp [this]
    · have hlt : value.length < m := by omega
      have hguard : (maxoccurTruthy (some m) && decide ((some m).getD 0 ≤ value.length)) = false := by
        simp only [maxoccurTruthy, Option.getD_some, Bool.and_eq_false_iff]
        right
        simpa using (by omega : ¬ m ≤ value.length)
      simp only [IDSStructArray.append, hguard, Bool.false_eq_true, if_false]
      have h1 : (value ++ [e]).length ≤ m := by
        simp only [List.length_append, List.length_singleton]; omega
      have h2 : m < (value ++ [e]).length + es.length := by
        simp only [List.length_append, List.length_singleton, List.length_cons] at hover ⊢
        omega
      rw [ih (value ++ [e]) h1 h2]
      have htake : m - value.length = (m - (value.length + 1)) + 1 := by omega
      have hlen : (value ++ [e]).length = value.length + 1 := by simp
      simp only [List.append_assoc, List.singleton_append, htake, List.take_succ_cons, hlen]

theorem IDSStructArray.append_ok_of_not_truthy {α : Type} (maxoccur : Option Nat)
    (h : maxoccurTruthy maxoccur = false) (value es : List α) :
    IDSStructArray.append maxoccur value es = .ok (value ++ es) := by
  induction es generalizing value with
  | nil => simp [IDSStructArray.append]
  | cons e es ih =>
    simp only [IDSStructArray.append, h, Bool.false_and, Bool.false_eq_true, if_false]
    rw [ih (value ++ [e])]
    simp

theorem IDSStructArray.append_ok_cases {α : Type} (maxoccur : Option Nat) (value es : List α)
    (h : maxoccurTruthy maxoccur = true → value.length + es.length ≤ maxoccur.getD 0) :
    IDSStructArray.append maxoccur value es = .ok (value ++ es) := by
  cases htr : maxoccurTruthy maxoccur with
  | false => exact IDSStructArray.append_ok_of_not_truthy maxoccur htr value es
  | true =>
    match maxoccur, htr with
    | some m, htr' =>
      exact IDSStructArray.append_ok_of_fits m value es (by simpa using h htr')

/-- C4 (counterexample): the claim "for every n ≥ 0, resize(n, keep=false)
succeeds and leaves the array with length exactly n" is false on the code:
`resize(0, keep=False)` falls into the `elif not keep` branch and raises
`NotImplementedError` (after having already cleared the array), and when the
descriptor carries a truthy maximum-occurrence bound smaller than `n` the
`append` call inside `resize` raises `RuntimeError` after filling the array
up to the bound. -/
theorem c4_resize_nokeep_counterexample :
    IDSStructArray.resize none 0 ([] : List Nat) 0 false =
      .error (.overwrite, []) ∧
    IDSStructArray.resize (some 1) 0 ([] : List Nat) 2 false =
      .error (.maxOccur, [0]) := by
  constructor <;> rfl

/-- C4 (amended): for every `n ≥ 1` that does not exceed a truthy
maximum-occurrence bound, `resize(n, keep=false)` succeeds and leaves the
array with exactly `n` elements, each a fresh copy of the element template
(hence empty whenever the template is empty). -/
theorem c4_resize_nokeep_amended {α : Type} (isEmp : α → Bool) (maxoccur : Option Nat)
    (tmpl : α) (value : List α) (n : Nat)
    (hn : 1 ≤ n)
    (hbound : maxoccurTruthy maxoccur = true → n ≤ maxoccur.getD 0)
    (hemp : isEmp tmpl = true) :
    IDSStructArray.resize maxoccur tmpl value n false = .ok (List.replicate n tmpl) ∧
    (List.replicate n tmpl).length = n ∧
    ∀ x ∈ List.replicate n tmpl, x = tmpl ∧ isEmp x = true := by
  refine ⟨?_, by simp, ?_⟩
  · have happ := IDSStructArray.append_ok_cases maxoccur []
      (List.replicate n tmpl) (by simpa using hbound)
    simp [IDSStructArray.resize, (by omega : 0 < n), happ]
  · intro x hx
    have hxe : x = tmpl := List.eq_of_mem_replicate hx
    exact ⟨hxe, hxe ▸ hemp⟩

theorem c4_resize_nokeep_amended_witness :
    IDSStructArray.resize (some 3) 0 [9] 2 false = .ok (List.replicate 2 0) ∧
    (List.replicate 2 (0 : Nat)).length = 2 ∧
    ∀ x ∈ List.replicate 2 (0 : Nat), x = 0 ∧ decide (x = 0) = true :=
  c4_resize_nokeep_amended (fun x => decide (x = 0)) (some 3) 0 [9] 2
    (by decide) (by decide) (by decide)

/-- C5 (counterexample): the claim "resize(n, keep=true) with n ≥ current
length preserves existing elements and appends n - c fresh elements (final
length n)" fails when the descriptor carries a truthy maximum-occurrence
bound smaller than `n`: the internal `append` raises `RuntimeError` and the
array stays at the bound. -/
theorem c5_resize_keep_counterexample :
    IDSStructArray.resize (some 1) 0 ([5] : List Nat) 2 true =
      .error (.maxOccur, [5]) := by
  rfl

/-- C5 (amended): for an array of current length `c`, `resize(n, keep=true)`
with `c ≤ n` not exceeding a truthy maximum-occurrence bound preserves all
existing elements unchanged and appends `n - c` fresh template elements;
`n < c` fails with the shrink `NotImplementedError` (`UnsupportedShrink`),
leaving the value untouched. -/
theorem c5_resize_keep_amended {α : Type} (maxoccur : Option Nat) (tmpl : α)
    (value : List α) (n : Nat) :
    (value.length ≤ n → (maxoccurTruthy maxoccur = true → n ≤ maxoccur.getD 0) →
      IDSStructArray.resize maxoccur tmpl value n true =
        .ok (value ++ List.replicate (n - value.length) tmpl)) ∧
    (n < value.length →
      IDSStructArray.resize maxoccur tmpl value n true = .error (.shrink, value)) := by
  constructor
  · intro hle hbound
    by_cases hgt : n > value.length
    · have happ := IDSStructArray.append_ok_cases maxoccur value
        (List.replicate (n - value.length) tmpl)
        (by intro ht; have := hbound ht; simp; omega)
      simp [IDSStructArray.resize, hgt, happ]
    · have heq : n = value.length := by omega
      subst heq
      simp [IDSStructArray.resize]
  · intro hlt
    simp [IDSStructArray.resize, hlt, (by omega : ¬ n > value.length)]
    intro h
    exact absurd h (by omega)

theorem c5_resize_keep_amended_witness :
    ((([5] : List Nat)).length ≤ 3 → (maxoccurTruthy (some 4) = true → 3 ≤ (some 4).getD 0) →
      IDSStructArray.resize (some 4) 0 [5] 3 true =
        .ok ([5] ++ List.replicate (3 - ([5] : List Nat).length) 0)) ∧
    (3 < (([5] : List Nat)).length →
      IDSStructArray.resize (some 4) 0 [5] 3 true = .error (.shrink, [5])) :=
  c5_resize_keep_amended (some 4) 0 [5] 3

/-- C6 (counterexample): the claim "append fails with MaxOccurExceeded
whenever the resulting length would exceed the descriptor's
maximum-occurrence bound m" is false for a descriptor carrying the bound
`m = 0`: Python's `if self.metadata.maxoccur and ...` treats the bound `0`
as falsy, so the check is skipped and the append succeeds although the
resulting length 1 exceeds the bound 0. -/
theorem c6_append_counterexample :
    IDSStructArray.append (some 0) ([] : List Nat) [7] = .ok [7] := by
  rfl

/-- C6 (amended): for a descriptor carrying a truthy (nonzero)
maximum-occurrence bound `m ≥ 1`, `append` adds the given elements to the
end when the resulting length stays within `m`, and raises the
max-occurrence `RuntimeError` (`MaxOccurExceeded`) whenever the resulting
length would exceed `m`; when no bound is set, `append` never fails. -/
theorem c6_append_amended {α : Type} (m : Nat) (hm : 1 ≤ m) (value es : List α) :
    (value.length + es.length ≤ m →
      IDSStructArray.append (some m) value es = .ok (value ++ es)) ∧
    (value.length ≤ m → m < value.length + es.length →
      IDSStructArray.append (some m) value es =
        .error (value ++ es.take (m - value.length))) ∧
    (∀ v e : List α, IDSStructArray.append none v e = .ok (v ++ e)) := by
  refine ⟨?_, ?_, ?_⟩
  · intro hfits
    exact IDSStructArray.append_ok_of_fits m value es hfits
  · intro hc hover
    exact IDSStructArray.append_error_of_overflow m value es hm hc hover
  · intro v e
    exact IDSStructArray.append_none_ok v e

theorem c6_append_amended_witness :
    ((([8] : List Nat)).length + ([1, 2] : List Nat).length ≤ 3 →
      IDSStructArray.append (some 3) [8] [1, 2] = .ok ([8] ++ [1, 2])) ∧
    ((([8] : List Nat)).length ≤ 3 → 3 < (([8] : List Nat)).length + ([1, 2, 9] : List Nat).length →
      IDSStructArray.append (some 3) [8] [1, 2, 9] =
        .error ([8] ++ ([1, 2, 9] : List Nat).take (3 - ([8] : List Nat).length))) ∧
    (∀ v e : List Nat, IDSStructArray.append none v e = .ok (v ++ e)) :=
  ⟨(c6_append_amended 3 (by decide) [8] [1, 2]).1,
   (c6_append_amended 3 (by decide) [8] [1, 2, 9]).2.1,
   (c6_append_amended 3 (by decide) ([] : List Nat) []).2.2⟩

/-- C9 (counterexample): the claim presupposes that appending past the
maximum-occurrence bound `m` always raises; with the bound `m = 0` (falsy
in Python) no failure is raised at all and the array grows past the bound,
so "the array's length equals m at the moment the failure is raised" fails. -/
theorem c9_append_partial_counterexample :
    IDSStructArray.append (some 0) ([] : List Nat) [3, 4] = .ok [3, 4] := by
  rfl

/-- C9 (amended): for a truthy maximum-occurrence bound `m ≥ 1`, appending a
list of `k` elements to an array of current length `c ≤ m` with `c + k > m`
is not atomic: the bound is checked before each element, the first `m - c`
elements are already appended when the `RuntimeError` is raised, and the
array's length equals `m` at that moment (the error payload is the array
state left behind by the in-place mutation). -/
theorem c9_append_partial_amended {α : Type} (m : Nat) (value es : List α)
    (hm : 1 ≤ m) (hc : value.length ≤ m) (hover : m < value.length + es.length) :
    IDSStructArray.append (some m) value es =
      .error (value ++ es.take (m - value.length)) ∧
    (value ++ es.take (m - value.length)).length = m := by
  refine ⟨IDSStructArray.append_error_of_overflow m value es hm hc hover, ?_⟩
  simp only [List.length_append, List.length_take]
  omega

theorem c9_append_partial_amended_witness :
    IDSStructArray.append (some 2) ([6] : List Nat) [7, 8, 9] =
      .error ([6] ++ ([7, 8, 9] : List Nat).take (2 - ([6] : List Nat).length)) ∧
    (([6] : List Nat) ++ ([7, 8, 9] : List Nat).take (2 - ([6] : List Nat).length)).length = 2 :=
  c9_append_partial_amended 2 [6] [7, 8, 9] (by decide) (by decide) (by decide)

/-! ## The context-scoped backend I/O protocol

`context_store` (imaspy/context_store.py, used throughout ids_toplevel.py and
ids_struct_array.py) is a process-wide dictionary from backend context handle
to the path it represents; it is modelled as an association list threaded
through the functions.  Backend (`self._ull.ual_*`) calls are opaque: every
embedded function takes the statuses / handles / sizes the backend returns
as parameters and records each issued call in a trace of `BOp` events. -/

abbrev ContextStore := List (Int × String)

/-- Models `context_store[ctx] = path` (dictionary assignment, overwriting). -/
def ContextStore.set (s : ContextStore) (k : Int) (v : String) : ContextStore :=
  (k, v) :: s.filter (fun p => p.1 != k)

/-- Models `context_store.pop(ctx)`. -/
def ContextStore.pop (s : ContextStore) (k : Int) : ContextStore :=
  s.filter (fun p => p.1 != k)

/-- Models `context_store[ctx]` lookup (with a default instead of `KeyError`). -/
def ContextStore.getD (s : ContextStore) (k : Int) (d : String) : String :=
  match s.find? (fun p => p.1 == k) with
  | some p => p.2
  | none => d

/-- Models `ctx in context_store`. -/
def ContextStore.holds (s : ContextStore) (k : Int) : Bool :=
  s.any (fun p => p.1 == k)

/-- One backend call as recorded in the trace. -/
inductive BOp where
  | beginGlobal (path : String) (op : Nat)
  | beginArr (path : String) (declaredLen : Nat)
  | readData (path : String)
  | childDelete (name : String) (kind : Nat)
  | childPut (name : String)
  | childPutIdx (i : Nat)
  | childGetIdx (i : Nat)
  | iterArr
  | endAction (ctx : Int)
  deriving DecidableEq, Repr

/-- The exception kinds raised by the I/O layer: `ALException` for a bad
time mode, for an empty homogeneous time base, or wrapping a non-zero
backend status; plus the `resize` errors that `IDSStructArray.get` can hit. -/
inductive PErr where
  | badTimeMode
  | emptyTimeBase
  | backend (status : Int)
  | resizeFail (e : IDSStructArray.ResizeErr)
  deriving DecidableEq, Repr

/-- Result of one embedded I/O operation: the Python return value or raised
exception, plus the `context_store` and the backend-call trace left behind. -/
structure IOOut (α : Type) where
  res : Except PErr α
  store : ContextStore
  trace : List BOp

/-- Embeds `IDSToplevel.readHomogeneous`, ids_toplevel.py lines 126-168.
`localHomTime` is `self.ids_properties.homogeneous_time.value`; the backend
is only consulted when it is `EMPTY_INT`.  Note the source adds the
`context_store[ctx]` entry *before* checking the begin status, raises on a
failed read without closing the context, and on the end path calls
`ual_end_action`, then pops, then checks the status. -/
def IDSToplevel.readHomogeneous (name : String) (occurrence : Nat) (localHomTime : Int)
    (basePath : String) (beginRes : Int × Int) (readRes : Int × Int) (endStatus : Int)
    (store : ContextStore) : IOOut Int :=
  let path := if occurrence == 0 then name else name ++ "/" ++ toString occurrence
  if localHomTime != EMPTY_INT then
    { res := .ok localHomTime, store := store, trace := [] }
  else
    let (st1, ctx) := beginRes
    let store := store.set ctx (basePath ++ "/" ++ path)
    let trace := [BOp.beginGlobal path READ_OP]
    if st1 != 0 then { res := .error (.backend st1), store := store, trace := trace }
    else
      let (st2, ht) := readRes
      let trace := trace ++ [BOp.readData "ids_properties/homogeneous_time"]
      if st2 != 0 then { res := .error (.backend st2), store := store, trace := trace }
      else
        let trace := trace ++ [BOp.endAction ctx]
        let store := store.pop ctx
        if endStatus != 0 then { res := .error (.backend endStatus), store := store, trace := trace }
        else { res := .ok ht, store := store, trace := trace }

/-- Child kinds distinguished by `IDSToplevel.deleteData` (line 285):
`0` for `IDSStructArray`/`IDSPrimitive` children (deleted through
`ual_delete_data`), `1` for structure children (deleted through
`child.delete(ctx)`). -/
def DATA_CHILD : Nat := 0

def STRUCT_CHILD : Nat := 1

/-- The per-child loop of `IDSToplevel.deleteData` (lines 283-302): each
child issues one delete call; a non-zero status raises immediately (leaving
the context open). -/
def IDSToplevel.delLoop (stDel : String → Int) :
    List (String × Nat) → List BOp → Except PErr Unit × List BOp
  | [], trace => (.ok (), trace)
  | (n, k) :: rest, trace =>
    let st := stDel n
    let trace := trace ++ [BOp.childDelete n k]
    if st != 0 then (.error (.backend st), trace)
    else IDSToplevel.delLoop stDel rest trace

/-- Embeds `IDSToplevel.deleteData`, ids_toplevel.py lines 261-309.
`basePath` is `context_store[self._idx]`; the source stores
`context_store[ctx] = context_store[self._idx] + rel_path` *before* checking
the begin status (note: no "/" separator here), and at the end calls
`ual_end_action`, pops the entry, then checks the status (`< 0`). -/
def IDSToplevel.deleteData (children : List (String × Nat)) (basePath relPath : String)
    (beginRes : Int × Int) (stDel : String → Int) (endSt : Int)
    (store : ContextStore) : IOOut Unit :=
  let (st, ctx) := beginRes
  let store := store.set ctx (basePath ++ relPath)
  let trace := [BOp.beginGlobal relPath WRITE_OP]
  if st < 0 then { res := .error (.backend st), store := store, trace := trace }
  else
    match IDSToplevel.delLoop stDel children trace with
    | (.error e, trace) => { res := .error e, store := store, trace := trace }
    | (.ok _, trace) =>
      let trace := trace ++ [BOp.endAction ctx]
      let store := store.pop ctx
      if endSt < 0 then { res := .error (.backend endSt), store := store, trace := trace }
      else { res := .ok (), store := store, trace := trace }

/-- In-memory state of an `IDSToplevel` as far as the write path inspects
and mutates it (ids_toplevel.py lines 311-387). -/
structure IDSToplevel where
  homTime : Int
  timeLen : Nat
  hasVersionPut : Bool
  vpDataDict : String
  vpALLang : String
  backendVersion : Option String
  version : String
  children : List (String × Nat)
  deriving DecidableEq, Repr

/-- The child-put loop of `to_ualstore` (lines 358-363): each child's `put`
is an opaque balanced operation; it issues no delete action and restores the
context store, so only its trace marker is recorded. -/
def IDSToplevel.putChildren : List (String × Nat) → List BOp → List BOp
  | [], trace => trace
  | (n, _) :: rest, trace => IDSToplevel.putChildren rest (trace ++ [BOp.childPut n])

/-- Embeds `IDSToplevel.to_ualstore`, ids_toplevel.py lines 311-370.
Control flow matches the source: if `homogeneous_time` is
`IDS_TIME_MODE_UNKNOWN` the method logs an error and *returns without any
action* (no exception); an invalid mode raises `ALException`; homogeneous
mode with an empty time vector raises `ALException`; otherwise
`deleteData(occurrence)` runs first, then the write context is opened, the
children are put, and the source pops the context-store entry *before*
calling `ual_end_action`. -/
def IDSToplevel.to_ualstore (tl : IDSToplevel) (basePath path relPath : String)
    (delBegin : Int × Int) (stDel : String → Int) (delEnd : Int)
    (wBegin : Int × Int) (wEnd : Int) (store : ContextStore) : IOOut Unit :=
  let homogeneousTime := tl.homTime
  if homogeneousTime == IDS_TIME_MODE_UNKNOWN then
    { res := .ok (), store := store, trace := [] }
  else if !(IDS_TIME_MODES.contains homogeneousTime) then
    { res := .error .badTimeMode, store := store, trace := [] }
  else if homogeneousTime == IDS_TIME_MODE_HOMOGENEOUS && decide (tl.timeLen = 0) then
    { res := .error .emptyTimeBase, store := store, trace := [] }
  else
    match IDSToplevel.deleteData tl.children basePath relPath delBegin stDel delEnd store with
    | { res := .error e, store := store, trace := trace } =>
      { res := .error e, store := store, trace := trace }
    | { res := .ok _, store := store, trace := trace } =>
      let (st, ctx) := wBegin
      let trace := trace ++ [BOp.beginGlobal path WRITE_OP]
      if st != 0 then { res := .error (.backend st), store := store, trace := trace }
      else
        let store := store.set ctx path
        let trace := IDSToplevel.putChildren tl.children trace
        let store := store.pop ctx
        let trace := trace ++ [BOp.endAction ctx]
        if wEnd != 0 then { res := .error (.backend wEnd), store := store, trace := trace }
        else { res := .ok (), store := store, trace := trace }

/-- Python's `self._backend_version or self._version` (line 383): `or`
falls through both on `None` and on the empty string. -/
def pyOr (a : Option String) (b : String) : String :=
  match a with
  | some s => if s.isEmpty then b else s
  | none => b

/-- Embeds `IDSToplevel.put`, ids_toplevel.py lines 378-387.  When called without
an explicit data store it first writes the `ids_properties/version_put`
fields into the in-memory tree (if that child exists) and only then calls
`to_ualstore`, which performs the time-mode checks.  Returns the (possibly
mutated) tree together with the I/O outcome. -/
def IDSToplevel.put (tl : IDSToplevel) (dataStoreGiven : Bool)
    (basePath path relPath : String)
    (delBegin : Int × Int) (stDel : String → Int) (delEnd : Int)
    (wBegin : Int × Int) (wEnd : Int) (store : ContextStore) :
    IDSToplevel × IOOut Unit :=
  let tl :=
    if !dataStoreGiven && tl.hasVersionPut then
      { tl with vpDataDict := pyOr tl.backendVersion tl.version, vpALLang := "Python" }
    else tl
  (tl, IDSToplevel.to_ualstore tl basePath path relPath delBegin stDel delEnd wBegin wEnd store)

/-- The element loop of `IDSStructArray.put` (ids_struct_array.py lines
230-245): for each index the context-store entry is updated (re-reading the
parent entry), the element's `put` runs (an opaque store transformer `cp`),
and `ual_iterate_over_arraystruct` is issued; a non-zero iterate status
raises immediately, with the nested context left open. -/
def IDSStructArray.putLoop (parentCtx aosCtx : Int) (nodePath : String)
    (cp : Nat → ContextStore → ContextStore) (iterSt : Nat → Int) :
    List Nat → ContextStore → List BOp → Except PErr Unit × ContextStore × List BOp
  | [], store, trace => (.ok (), store, trace)
  | i :: is, store, trace =>
    let store := store.set aosCtx
      (store.getD parentCtx "" ++ "/" ++ nodePath ++ "/" ++ toString (i + 1))
    let store := cp i store
    let trace := trace ++ [BOp.childPutIdx i]
    let st := iterSt i
    let trace := trace ++ [BOp.iterArr]
    if st != 0 then (.error (.backend st), store, trace)
    else IDSStructArray.putLoop parentCtx aosCtx nodePath cp iterSt is store trace

/-- Embeds `IDSStructArray.put`, ids_struct_array.py lines 209-252.  The begin
call returns `(status, aosCtx, size)`; the loop runs over the
backend-reported `size`.  At the end the source calls `ual_end_action`,
then pops the entry, then checks the status. -/
def IDSStructArray.put (valueLen : Nat) (parentCtx : Int)
    (nodePath timeBasePath : String) (beginRes : Int × Int × Nat)
    (cp : Nat → ContextStore → ContextStore) (iterSt : Nat → Int) (endSt : Int)
    (store : ContextStore) : IOOut Unit :=
  let (st, aosCtx, size) := beginRes
  let trace := [BOp.beginArr nodePath valueLen]
  if st != 0 || aosCtx < 0 then
    { res := .error (.backend st), store := store, trace := trace }
  else
    let store := store.set aosCtx (store.getD parentCtx "" ++ "/" ++ nodePath ++ "/0")
    match IDSStructArray.putLoop parentCtx aosCtx nodePath cp iterSt
        (List.range size) store trace with
    | (.error e, store, trace) => { res := .error e, store := store, trace := trace }
    | (.ok _, store, trace) =>
      let trace := trace ++ [BOp.endAction aosCtx]
      let store := store.pop aosCtx
      if endSt != 0 then { res := .error (.backend endSt), store := store, trace := trace }
      else { res := .ok (), store := store, trace := trace }

/-- The element loop of `IDSStructArray.get` (ids_struct_array.py lines
198-203): updates the context-store entry, runs the element's `get` (an
opaque transformer `cg` of the element value and the store), and issues
`ual_iterate_over_arraystruct`, whose status the source ignores. -/
def IDSStructArray.getLoop {α : Type} (parentCtx aosCtx : Int) (nodePath : String)
    (tmpl : α) (cg : Nat → α → ContextStore → α × ContextStore) :
    List Nat → List α → ContextStore → List BOp → List α × ContextStore × List BOp
  | [], value, store, trace => (value, store, trace)
  | i :: is, value, store, trace =>
    let store := store.set aosCtx
      (store.getD parentCtx "" ++ "/" ++ nodePath ++ "/" ++ toString (i + 1))
    let (el, store) := cg i (value.getD i tmpl) store
    let value := value.set i el
    let trace := trace ++ [BOp.childGetIdx i, BOp.iterArr]
    IDSStructArray.getLoop parentCtx aosCtx nodePath tmpl cg is value store trace

/-- Embeds `IDSStructArray.get`, ids_struct_array.py lines 174-207.
The begin call returns `(status, aosCtx, size)` with `size : Int`; only a
negative status raises.  When `size < 1` the method returns immediately:
before any context-store entry is added, before the resize, and without ever
calling `ual_end_action` on the nested context.  Otherwise the entry is
added (only when `aosCtx > 0`), the array is resized through
`IDSStructArray.resize` (whose failures propagate), the elements are read,
and finally the entry is popped and `ual_end_action` is issued with its
status ignored. -/
def IDSStructArray.get {α : Type} (value : List α) (maxoccur : Option Nat) (tmpl : α)
    (parentCtx : Int) (nodePath timeBasePath : String) (beginRes : Int × Int × Int)
    (cg : Nat → α → ContextStore → α × ContextStore)
    (store : ContextStore) : IOOut (List α) :=
  let (st, aosCtx, size) := beginRes
  let trace := [BOp.beginArr nodePath 0]
  if st < 0 then { res := .error (.backend st), store := store, trace := trace }
  else if size < 1 then { res := .ok value, store := store, trace := trace }
  else
    let store :=
      if aosCtx > 0 then
        store.set aosCtx (store.getD parentCtx "" ++ "/" ++ nodePath ++ "/1")
      else store
    match IDSStructArray.resize maxoccur tmpl value size.toNat false with
    | .error (e, _) => { res := .error (.resizeFail e), store := store, trace := trace }
    | .ok value =>
      match IDSStructArray.getLoop parentCtx aosCtx nodePath tmpl cg
          (List.range size.toNat) value store trace with
      | (value, store, trace) =>
        if aosCtx > 0 then
          { res := .ok value, store := store.pop aosCtx,
            trace := trace ++ [BOp.endAction aosCtx] }
        else
          { res := .ok value, store := store, trace := trace }

theorem ContextStore.holds_set (s : ContextStore) (k : Int) (v : String) :
    (s.set k v).holds k = true := by
  simp [ContextStore.set, ContextStore.holds]

/-- C10: when the begin-array-action of `IDSStructArray.get` succeeds
(status not negative) but reports a size smaller than 1, `get` returns
immediately: the in-memory array keeps its previous value (it is not
resized), no context-store entry is added, and the nested context's
`ual_end_action` is never called (the only backend call in the trace is the
begin-array action). -/
theorem c10_aosget_size_lt_one {α : Type} (value : List α) (maxoccur : Option Nat)
    (tmpl : α) (parentCtx : Int) (nodePath timeBasePath : String)
    (st aosCtx size : Int) (cg : Nat → α → ContextStore → α × ContextStore)
    (store : ContextStore) (hst : 0 ≤ st) (hsize : size < 1) :
    IDSStructArray.get value maxoccur tmpl parentCtx nodePath timeBasePath
        (st, aosCtx, size) cg store =
      { res := .ok value, store := store, trace := [BOp.beginArr nodePath 0] } ∧
    ∀ c, BOp.endAction c ∉
      (IDSStructArray.get value maxoccur tmpl parentCtx nodePath timeBasePath
        (st, aosCtx, size) cg store).trace := by
  have h1 : ¬ st < 0 := by omega
  constructor
  · unfold IDSStructArray.get
    simp [h1, hsize]
  · intro c
    unfold IDSStructArray.get
    simp [h1, hsize]

theorem c10_aosget_size_lt_one_witness :
    IDSStructArray.get [1, 2] none 0 3 "profiles_1d" "tb" (0, 7, 0)
        (fun _ a s => (a, s)) [(3, "root")] =
      { res := .ok [1, 2], store := [(3, "root")],
        trace := [BOp.beginArr "profiles_1d" 0] } ∧
    ∀ c, BOp.endAction c ∉
      (IDSStructArray.get [1, 2] none 0 3 "profiles_1d" "tb" (0, 7, 0)
        (fun _ a s => (a, s)) [(3, "root")]).trace :=
  c10_aosget_size_lt_one [1, 2] none 0 3 "profiles_1d" "tb" 0 7 0
    (fun _ a s => (a, s)) [(3, "root")] (by decide) (by decide)

/-- C3 (counterexample): in `IDSToplevel.readHomogeneous`, a failing
`ual_read_data` raises the `ALException` immediately: the context opened by
`ual_begin_global_action` is never closed and its entry stays in the
context-store map, contradicting "the path map holds no entry of the failed
operation once the error has propagated". -/
theorem c3_unwind_counterexample :
    (IDSToplevel.readHomogeneous "nbi" 0 EMPTY_INT "root" (0, 5) (-1, 0) 0 []).res
      = .error (.backend (-1)) ∧
    (IDSToplevel.readHomogeneous "nbi" 0 EMPTY_INT "root" (0, 5) (-1, 0) 0 []).store
      = [(5, "root/nbi")] ∧
    ContextStore.holds [(5, "root/nbi")] 5 = true ∧
    (IDSToplevel.readHomogeneous "nbi" 0 EMPTY_INT "root" (0, 5) (-1, 0) 0 []).trace
      = [BOp.beginGlobal "nbi" READ_OP, BOp.readData "ids_properties/homogeneous_time"] := by
  refine ⟨rfl, rfl, rfl, rfl⟩

/-- C3 (amended): a non-zero backend status makes the enclosing operation
raise immediately, with no unwinding: the context handles opened by the
operation stay open and their context-store entries remain in the map.
Shown for the two cited operations: a failing `ual_read_data` in
`IDSToplevel.readHomogeneous`, and a failing
`ual_iterate_over_arraystruct` in `IDSStructArray.put` (for a balanced,
store-preserving element put). -/
theorem c3_backend_error_no_unwind :
    (∀ (name basePath : String) (occ : Nat) (ctx : Int) (st2 v endSt : Int)
       (store : ContextStore), st2 ≠ 0 →
      (IDSToplevel.readHomogeneous name occ EMPTY_INT basePath (0, ctx) (st2, v) endSt store).res
        = .error (.backend st2) ∧
      ((IDSToplevel.readHomogeneous name occ EMPTY_INT basePath (0, ctx) (st2, v) endSt store).store).holds ctx
        = true ∧
      ∀ c, BOp.endAction c ∉
        (IDSToplevel.readHomogeneous name occ EMPTY_INT basePath (0, ctx) (st2, v) endSt store).trace) ∧
    (∀ (valueLen : Nat) (parentCtx : Int) (nodePath timeBasePath : String) (aosCtx : Int)
       (size : Nat) (cp : Nat → ContextStore → ContextStore) (iterSt : Nat → Int)
       (endSt : Int) (store : ContextStore),
      0 ≤ aosCtx → 1 ≤ size → (∀ i s, cp i s = s) → iterSt 0 ≠ 0 →
      (IDSStructArray.put valueLen parentCtx nodePath timeBasePath (0, aosCtx, size)
          cp iterSt endSt store).res = .error (.backend (iterSt 0)) ∧
      ((IDSStructArray.put valueLen parentCtx nodePath timeBasePath (0, aosCtx, size)
          cp iterSt endSt store).store).holds aosCtx = true ∧
      ∀ c, BOp.endAction c ∉
        (IDSStructArray.put valueLen parentCtx nodePath timeBasePath (0, aosCtx, size)
          cp iterSt endSt store).trace) := by
  constructor
  · intro name basePath occ ctx st2 v endSt store hst2
    unfold IDSToplevel.readHomogeneous
    simp [hst2, ContextStore.holds_set]
  · intro valueLen parentCtx nodePath timeBasePath aosCtx size cp iterSt endSt store
      haos hsize hcp hiter
    obtain ⟨k, rfl⟩ : ∃ k, size = k + 1 := ⟨size - 1, by omega⟩
    have hneg : ¬ aosCtx < 0 := by omega
    have hrange : List.range (k + 1) = 0 :: List.map Nat.succ (List.range k) :=
      List.range_succ_eq_map k
    unfold IDSStructArray.put
    simp [hrange, hneg, IDSStructArray.putLoop, hcp, hiter, ContextStore.holds_set]

theorem c3_backend_error_no_unwind_witness :
    ((IDSToplevel.readHomogeneous "nbi" 0 EMPTY_INT "root" (0, 5) (-1, 0) 0 []).res
        = .error (.backend (-1)) ∧
      ((IDSToplevel.readHomogeneous "nbi" 0 EMPTY_INT "root" (0, 5) (-1, 0) 0 []).store).holds 5
        = true ∧
      ∀ c, BOp.endAction c ∉
        (IDSToplevel.readHomogeneous "nbi" 0 EMPTY_INT "root" (0, 5) (-1, 0) 0 []).trace) ∧
    ((IDSStructArray.put 2 3 "coil" "tb" (0, 9, 2) (fun _ s => s) (fun _ => -2) 0 []).res
        = .error (.backend (-2)) ∧
      ((IDSStructArray.put 2 3 "coil" "tb" (0, 9, 2) (fun _ s => s) (fun _ => -2) 0 []).store).holds 9
        = true ∧
      ∀ c, BOp.endAction c ∉
        (IDSStructArray.put 2 3 "coil" "tb" (0, 9, 2) (fun _ s => s) (fun _ => -2) 0 []).trace) :=
  ⟨c3_backend_error_no_unwind.1 "nbi" "root" 0 5 (-1) 0 0 [] (by decide),
   c3_backend_error_no_unwind.2 2 3 "coil" "tb" 9 2 (fun _ s => s) (fun _ => -2) 0 []
     (by decide) (by decide) (fun _ _ => rfl) (by decide)⟩

/-- C1 (counterexample): with time mode UNKNOWN, `to_ualstore` logs an
error and returns without raising (the claim says the write fails with
`TimeModeUndefined`); and `put()` (default data store, tree with a
`version_put` child) mutates `ids_properties/version_put` *before* the
precondition checks, so when the write then fails with `EmptyTimeBase` the
in-memory tree has been modified (the claim says it is left unmodified). -/
theorem c1_write_precondition_counterexample :
    (IDSToplevel.to_ualstore
        ⟨EMPTY_INT, 0, true, "", "", some "3.30.0", "3.39.0",
          [("ids_properties", STRUCT_CHILD), ("time", DATA_CHILD)]⟩
        "" "nbi" "nbi" (0, 1) (fun _ => 0) 0 (0, 2) 0 []).res = .ok () ∧
    ((IDSToplevel.put ⟨1, 0, true, "", "", some "3.30.0", "3.39.0", []⟩ false
        "" "nbi" "nbi" (0, 1) (fun _ => 0) 0 (0, 2) 0 []).2).res
      = .error .emptyTimeBase ∧
    (IDSToplevel.put ⟨1, 0, true, "", "", some "3.30.0", "3.39.0", []⟩ false
        "" "nbi" "nbi" (0, 1) (fun _ => 0) 0 (0, 2) 0 []).1
      ≠ ⟨1, 0, true, "", "", some "3.30.0", "3.39.0", []⟩ := by
  refine ⟨rfl, rfl, by decide⟩

/-- C1 (amended): if the time mode is UNKNOWN the write returns with no
action and no exception (the error is only logged); if the time mode is
HOMOGENEOUS and the root time vector is empty the write raises
`ALException` (`EmptyTimeBase`) before any backend action; `to_ualstore`
itself never mutates the tree, but `put()` with the default data store
writes the `ids_properties/version_put` fields before these checks, so the
tree's `version_put` subtree is modified even when the write then fails. -/
theorem c1_write_preconditions_amended (tl : IDSToplevel) (basePath path relPath : String)
    (delBegin : Int × Int) (stDel : String → Int) (delEnd : Int) (wBegin : Int × Int)
    (wEnd : Int) (store : ContextStore) :
    (tl.homTime = IDS_TIME_MODE_UNKNOWN →
      IDSToplevel.to_ualstore tl basePath path relPath delBegin stDel delEnd wBegin wEnd store
        = { res := .ok (), store := store, trace := [] }) ∧
    (tl.homTime = IDS_TIME_MODE_HOMOGENEOUS → tl.timeLen = 0 →
      IDSToplevel.to_ualstore tl basePath path relPath delBegin stDel delEnd wBegin wEnd store
        = { res := .error .emptyTimeBase, store := store, trace := [] }) ∧
    (tl.hasVersionPut = true →
      (IDSToplevel.put tl false basePath path relPath delBegin stDel delEnd wBegin wEnd store).1
        = { tl with vpDataDict := pyOr tl.backendVersion tl.version, vpALLang := "Python" }) := by
  refine ⟨?_, ?_, ?_⟩
  · intro h
    simp [IDSToplevel.to_ualstore, h]
  · intro h ht
    simp [IDSToplevel.to_ualstore, h, ht, IDS_TIME_MODE_HOMOGENEOUS, IDS_TIME_MODE_UNKNOWN,
      EMPTY_INT, IDS_TIME_MODES]
  · intro h
    simp [IDSToplevel.put, h]

theorem c1_write_preconditions_amended_witness :
    (IDSToplevel.to_ualstore
        ⟨EMPTY_INT, 3, true, "", "", none, "3.39.0", [("time", DATA_CHILD)]⟩
        "b" "nbi" "nbi" (0, 1) (fun _ => 0) 0 (0, 2) 0 []
      = { res := .ok (), store := [], trace := [] }) ∧
    (IDSToplevel.to_ualstore
        ⟨1, 0, true, "", "", none, "3.39.0", [("time", DATA_CHILD)]⟩
        "b" "nbi" "nbi" (0, 1) (fun _ => 0) 0 (0, 2) 0 []
      = { res := .error .emptyTimeBase, store := [], trace := [] }) ∧
    ((IDSToplevel.put ⟨1, 0, true, "", "", none, "3.39.0", [("time", DATA_CHILD)]⟩ false
        "b" "nbi" "nbi" (0, 1) (fun _ => 0) 0 (0, 2) 0 []).1
      = { homTime := 1, timeLen := 0, hasVersionPut := true,
          vpDataDict := pyOr none "3.39.0", vpALLang := "Python",
          backendVersion := none, version := "3.39.0",
          children := [("time", DATA_CHILD)] }) :=
  ⟨(c1_write_preconditions_amended
      ⟨EMPTY_INT, 3, true, "", "", none, "3.39.0", [("time", DATA_CHILD)]⟩
      "b" "nbi" "nbi" (0, 1) (fun _ => 0) 0 (0, 2) 0 []).1 rfl,
   (c1_write_preconditions_amended
      ⟨1, 0, true, "", "", none, "3.39.0", [("time", DATA_CHILD)]⟩
      "b" "nbi" "nbi" (0, 1) (fun _ => 0) 0 (0, 2) 0 []).2.1 rfl rfl,
   (c1_write_preconditions_amended
      ⟨1, 0, true, "", "", none, "3.39.0", [("time", DATA_CHILD)]⟩
      "b" "nbi" "nbi" (0, 1) (fun _ => 0) 0 (0, 2) 0 []).2.2 rfl⟩

/-! ### Trace ordering: deletes before child writes (C7) -/

def isChildDeleteOp : BOp → Bool
  | .childDelete _ _ => true
  | _ => false

def isChildPutOp : BOp → Bool
  | .childPut _ => true
  | _ => false

/-- Once a child-put event appears in the trace, no delete event may follow. -/
def delsBeforePuts : List BOp → Bool
  | [] => true
  | op :: rest =>
    if isChildPutOp op then rest.all (fun o => !isChildDeleteOp o)
    else delsBeforePuts rest

theorem delsBeforePuts_of_noputs (l : List BOp)
    (h : l.all (fun o => !isChildPutOp o) = true) : delsBeforePuts l = true := by
  induction l with
  | nil => rfl
  | cons op rest ih =>
    simp only [List.all_cons, Bool.and_eq_true, Bool.not_eq_true'] at h
    simp only [delsBeforePuts, h.1, Bool.false_eq_true, if_false]
    exact ih h.2

theorem delsBeforePuts_of_nodels (l : List BOp)
    (h : l.all (fun o => !isChildDeleteOp o) = true) : delsBeforePuts l = true := by
  induction l with
  | nil => rfl
  | cons op rest ih =>
    simp only [List.all_cons, Bool.and_eq_true] at h
    by_cases hput : isChildPutOp op
    · simp only [delsBeforePuts, hput, if_true]
      exact h.2
    · simp only [delsBeforePuts, hput, if_false]
      exact ih h.2

theorem delsBeforePuts_append (t1 t2 : List BOp)
    (h1 : t1.all (fun o => !isChildPutOp o) = true)
    (h2 : t2.all (fun o => !isChildDeleteOp o) = true) :
    delsBeforePuts (t1 ++ t2) = true := by
  induction t1 with
  | nil => simpa using delsBeforePuts_of_nodels t2 h2
  | cons op rest ih =>
    simp only [List.all_cons, Bool.and_eq_true, Bool.not_eq_true'] at h1
    simp only [List.cons_append, delsBeforePuts, h1.1, Bool.false_eq_true, if_false]
    exact ih h1.2

theorem IDSToplevel.putChildren_eq (ch : List (String × Nat)) (trace : List BOp) :
    IDSToplevel.putChildren ch trace = trace ++ ch.map (fun p => BOp.childPut p.1) := by
  induction ch generalizing trace with
  | nil => simp [IDSToplevel.putChildren]
  | cons c rest ih =>
    simp [IDSToplevel.putChildren, ih]

theorem IDSToplevel.delLoop_zero (stDel : String → Int) (h : ∀ n, stDel n = 0)
    (ch : List (String × Nat)) (trace : List BOp) :
    IDSToplevel.delLoop stDel ch trace =
      (.ok (), trace ++ ch.map (fun p => BOp.childDelete p.1 p.2)) := by
  induction ch generalizing trace with
  | nil => simp [IDSToplevel.delLoop]
  | cons c rest ih =>
    simp [IDSToplevel.delLoop, h, ih]

theorem IDSToplevel.delLoop_trace_all (stDel : String → Int) (p : BOp → Bool)
    (hdel : ∀ n k, p (BOp.childDelete n k) = true) (ch : List (String × Nat))
    (trace : List BOp) (htr : trace.all p = true) :
    ((IDSToplevel.delLoop stDel ch trace).2).all p = true := by
  induction ch generalizing trace with
  | nil => simpa [IDSToplevel.delLoop] using htr
  | cons c rest ih =>
    simp only [IDSToplevel.delLoop]
    have htr' : (trace ++ [BOp.childDelete c.1 c.2]).all p = true := by
      simp [List.all_append, htr, hdel]
    by_cases hst : stDel c.1 != 0
    · simpa [hst] using htr'
    · simpa [hst] using ih (trace ++ [BOp.childDelete c.1 c.2]) htr'

theorem IDSToplevel.deleteData_trace_all (children : List (String × Nat))
    (basePath relPath : String) (beginRes : Int × Int) (stDel : String → Int)
    (endSt : Int) (store : ContextStore) (p : BOp → Bool)
    (hbegin : ∀ pa op, p (BOp.beginGlobal pa op) = true)
    (hdel : ∀ n k, p (BOp.childDelete n k) = true)
    (hend : ∀ c, p (BOp.endAction c) = true) :
    ((IDSToplevel.deleteData children basePath relPath beginRes stDel endSt store).trace).all p
      = true := by
  obtain ⟨st, ctx⟩ := beginRes
  have hbase : ([BOp.beginGlobal relPath WRITE_OP] : List BOp).all p = true := by
    simp [hbegin]
  unfold IDSToplevel.deleteData
  by_cases hst : st < 0
  · simpa [hst] using hbase
  · simp only [hst, if_false]
    have hloop := IDSToplevel.delLoop_trace_all stDel p hdel children
      [BOp.beginGlobal relPath WRITE_OP] hbase
    rcases hdd : IDSToplevel.delLoop stDel children [BOp.beginGlobal relPath WRITE_OP] with ⟨r, t⟩
    rw [hdd] at hloop
    cases r with
    | error e => simpa [hdd] using hloop
    | ok u =>
      have ht2 : (t ++ [BOp.endAction ctx]).all p = true := by
        simp only [List.all_eq_true] at hloop ⊢
        intro x hx
        rcases List.mem_append.1 hx with hx | hx
        · exact hloop x hx
        · rw [List.mem_singleton.1 hx]
          exact hend ctx
      by_cases hend2 : endSt < 0
      · simpa [hdd, hend2] using ht2
      · simpa [hdd, hend2] using ht2

theorem IDSToplevel.deleteData_zero (children : List (String × Nat))
    (basePath relPath : String) (c1 : Int) (stDel : String → Int)
    (h : ∀ n, stDel n = 0) (store : ContextStore) :
    IDSToplevel.deleteData children basePath relPath (0, c1) stDel 0 store =
      { res := .ok (), store := (store.set c1 (basePath ++ relPath)).pop c1,
        trace := [BOp.beginGlobal relPath WRITE_OP] ++
          children.map (fun p => BOp.childDelete p.1 p.2) ++ [BOp.endAction c1] } := by
  have hloop := IDSToplevel.delLoop_zero stDel h children [BOp.beginGlobal relPath WRITE_OP]
  unfold IDSToplevel.deleteData
  simp [hloop]

/-- C7: every write of a top-level tree performs the full delete of
previously stored data before any child write action: (a) in every run of
`to_ualstore`, whatever the backend statuses, no delete action appears
after a child-put action in the emitted backend trace; (b) in a successful
run (all statuses zero, valid time mode) the trace is exactly the full
`deleteData` trace (one delete per child between its own begin/end pair)
followed by the write phase (begin, one put per child, end). -/
theorem c7_delete_before_child_writes (tl : IDSToplevel) (basePath path relPath : String)
    (delBegin : Int × Int) (stDel : String → Int) (delEnd : Int)
    (wBegin : Int × Int) (wEnd : Int) (store : ContextStore) (c1 c2 : Int) :
    delsBeforePuts
      (IDSToplevel.to_ualstore tl basePath path relPath delBegin stDel delEnd
        wBegin wEnd store).trace = true ∧
    (tl.homTime ∈ IDS_TIME_MODES →
      ¬(tl.homTime = IDS_TIME_MODE_HOMOGENEOUS ∧ tl.timeLen = 0) →
      (∀ n, stDel n = 0) →
      (IDSToplevel.to_ualstore tl basePath path relPath (0, c1) stDel 0 (0, c2) 0 store).res
        = .ok () ∧
      (IDSToplevel.to_ualstore tl basePath path relPath (0, c1) stDel 0 (0, c2) 0 store).trace
        = ([BOp.beginGlobal relPath WRITE_OP] ++
            tl.children.map (fun p => BOp.childDelete p.1 p.2) ++ [BOp.endAction c1]) ++
          ([BOp.beginGlobal path WRITE_OP] ++
            tl.children.map (fun p => BOp.childPut p.1) ++ [BOp.endAction c2])) := by
  constructor
  · obtain ⟨wst, wctx⟩ := wBegin
    have hall := IDSToplevel.deleteData_trace_all tl.children basePath relPath
      delBegin stDel delEnd store (fun o => !isChildPutOp o)
      (fun _ _ => rfl) (fun _ _ => rfl) (fun _ => rfl)
    by_cases hA : (tl.homTime == IDS_TIME_MODE_UNKNOWN) = true
    · unfold IDSToplevel.to_ualstore
      simp [hA, delsBeforePuts]
    · by_cases hB : (!(IDS_TIME_MODES.contains tl.homTime)) = true
      · have hB' : tl.homTime ∉ IDS_TIME_MODES := by simpa using hB
        unfold IDSToplevel.to_ualstore
        simp [hA, hB', delsBeforePuts]
      · by_cases hC : (tl.homTime == IDS_TIME_MODE_HOMOGENEOUS && decide (tl.timeLen = 0)) = true
        · have hC' : tl.homTime = IDS_TIME_MODE_HOMOGENEOUS ∧ tl.timeLen = 0 := by
            simpa using hC
          unfold IDSToplevel.to_ualstore
          simp [hA, hC'.1, hC'.2, delsBeforePuts, IDS_TIME_MODES, IDS_TIME_MODE_HOMOGENEOUS]
        · rw [Bool.not_eq_true] at hA hB hC
          rcases hdd : IDSToplevel.deleteData tl.children basePath relPath delBegin
            stDel delEnd store with ⟨r, s, t⟩
          rw [hdd] at hall
          unfold IDSToplevel.to_ualstore
          rw [hdd]
          simp only [hA, hB, hC, Bool.false_eq_true, if_false]
          cases r with
          | error e =>
            simpa using delsBeforePuts_of_noputs t hall
          | ok u =>
            simp only at hall
            have h1 : ((t ++ [BOp.beginGlobal path WRITE_OP]).all
                (fun o => !isChildPutOp o)) = true := by
              simp only [List.all_append, hall, Bool.true_and]
              rfl
            by_cases hwst : (wst != 0) = true
            · simpa [hwst] using delsBeforePuts_of_noputs _ h1
            · have h2 : ((tl.children.map (fun p => BOp.childPut p.1) ++
                  [BOp.endAction wctx]).all (fun o => !isChildDeleteOp o)) = true := by
                rw [List.all_eq_true]
                intro o ho
                rcases List.mem_append.1 ho with ho | ho
                · obtain ⟨q, hq, rfl⟩ := List.mem_map.1 ho
                  rfl
                · obtain rfl := List.mem_singleton.1 ho
                  rfl
              have hmain := delsBeforePuts_append (t ++ [BOp.beginGlobal path WRITE_OP])
                (tl.children.map (fun p => BOp.childPut p.1) ++ [BOp.endAction wctx]) h1 h2
              by_cases hwend : (wEnd != 0) = true
              · simpa [hwst, hwend, IDSToplevel.putChildren_eq, List.append_assoc] using hmain
              · simpa [hwst, hwend, IDSToplevel.putChildren_eq, List.append_assoc] using hmain
  · intro hmem hnot hzero
    have hmem3 : tl.homTime = 0 ∨ tl.homTime = 1 ∨ tl.homTime = 2 := by
      simpa [IDS_TIME_MODES] using hmem
    have h1 : (tl.homTime == IDS_TIME_MODE_UNKNOWN) = false := by
      rcases hmem3 with h | h | h <;> simp [h, IDS_TIME_MODE_UNKNOWN, EMPTY_INT]
    have h2 : (!(IDS_TIME_MODES.contains tl.homTime)) = false := by
      rcases hmem3 with h | h | h <;> simp [h, IDS_TIME_MODES]
    have h3 : (tl.homTime == IDS_TIME_MODE_HOMOGENEOUS && decide (tl.timeLen = 0)) = false := by
      by_cases hh : tl.homTime = IDS_TIME_MODE_HOMOGENEOUS
      · have : tl.timeLen ≠ 0 := fun hz => hnot ⟨hh, hz⟩
        simp [hh, this]
      · simp [hh]
    have hdz := IDSToplevel.deleteData_zero tl.children basePath relPath c1 stDel hzero store
    unfold IDSToplevel.to_ualstore
    rw [hdz]
    simp [h1, h2, h3, hmem, IDSToplevel.putChildren_eq]

theorem c7_delete_before_child_writes_witness :
    delsBeforePuts
      (IDSToplevel.to_ualstore
        ⟨2, 0, false, "", "", none, "3", [("ids_properties", STRUCT_CHILD), ("a", DATA_CHILD)]⟩
        "b" "mag" "mag" (0, 11) (fun _ => 0) 0 (0, 12) 0 []).trace = true ∧
    ((IDSToplevel.to_ualstore
        ⟨2, 0, false, "", "", none, "3", [("ids_properties", STRUCT_CHILD), ("a", DATA_CHILD)]⟩
        "b" "mag" "mag" (0, 11) (fun _ => 0) 0 (0, 12) 0 []).res = .ok () ∧
      (IDSToplevel.to_ualstore
        ⟨2, 0, false, "", "", none, "3", [("ids_properties", STRUCT_CHILD), ("a", DATA_CHILD)]⟩
        "b" "mag" "mag" (0, 11) (fun _ => 0) 0 (0, 12) 0 []).trace
        = ([BOp.beginGlobal "mag" WRITE_OP] ++
            ([("ids_properties", STRUCT_CHILD), ("a", DATA_CHILD)] : List (String × Nat)).map
              (fun p => BOp.childDelete p.1 p.2) ++ [BOp.endAction 11]) ++
          ([BOp.beginGlobal "mag" WRITE_OP] ++
            ([("ids_properties", STRUCT_CHILD), ("a", DATA_CHILD)] : List (String × Nat)).map
              (fun p => BOp.childPut p.1) ++ [BOp.endAction 12])) :=
  ⟨(c7_delete_before_child_writes
      ⟨2, 0, false, "", "", none, "3", [("ids_properties", STRUCT_CHILD), ("a", DATA_CHILD)]⟩
      "b" "mag" "mag" (0, 11) (fun _ => 0) 0 (0, 12) 0 [] 11 12).1,
   (c7_delete_before_child_writes
      ⟨2, 0, false, "", "", none, "3", [("ids_properties", STRUCT_CHILD), ("a", DATA_CHILD)]⟩
      "b" "mag" "mag" (0, 11) (fun _ => 0) 0 (0, 12) 0 [] 11 12).2
      (by decide) (by decide) (fun _ => rfl)⟩

/-! ## Backend-version resolution during IDSToplevel.get (C2) -/

/-- The version-selection logic of `IDSToplevel.get`, ids_toplevel.py lines
218-233.  `stored` is the version read from storage by
`read_data_dictionary_version` (the `version_put` tag); `xmlPath` is
`self._backend_xml_path` and `declared` is `self._backend_version`.
Returns the `backend_version` variable after the if-block (the version used
for building the backend view) together with whether the mismatch warning
was logged.  When an xml path is set, the stored version is left in the
variable but is ignored in favour of the file; when a declared version is
set and differs from the stored one, the code *overwrites* the variable
with the declared version and logs a warning. -/
def resolveBackendVersion (xmlPath : Option String) (declared : Option String)
    (stored : String) : String × Bool :=
  match xmlPath, declared with
  | some _, _ => (stored, false)
  | none, some d => if stored != d then (d, true) else (d, false)
  | none, none => (stored, false)

/-- C2 (counterexample): when the caller declared backend version `3.30.0`
and the stored `version_put` tag is `3.25.0`, `get` uses the *declared*
version for the rest of the read (`backend_version = self._backend_version`,
line 231) — the stored version does not win; it is only mentioned in the
logged warning. -/
theorem c2_version_mismatch_counterexample :
    resolveBackendVersion none (some "3.30.0") "3.25.0" = ("3.30.0", true) ∧
    ("3.30.0" : String) ≠ "3.25.0" := by
  refine ⟨rfl, by decide⟩

/-- C2 (amended): a mismatch between the caller-declared version and the
stored version is indeed non-fatal (the resolution is total and always
returns a version), but the *declared* version wins: when a declared
version is set (and no explicit backend xml path is given), it is the one
used for the rest of the read, and the mismatch with the stored version is
only logged; the stored version is used only when the caller declared
nothing. -/
theorem c2_version_resolution_amended (d stored : String) :
    (stored ≠ d →
      resolveBackendVersion none (some d) stored = (d, true)) ∧
    (resolveBackendVersion none (some d) d = (d, false)) ∧
    (resolveBackendVersion none none stored = (stored, false)) := by
  refine ⟨?_, ?_, rfl⟩
  · intro hne
    simp [resolveBackendVersion, hne]
  · simp [resolveBackendVersion]

theorem c2_version_resolution_amended_witness :
    (("3.25.0" : String) ≠ "3.30.0" →
      resolveBackendVersion none (some "3.30.0") "3.25.0" = ("3.30.0", true)) ∧
    (resolveBackendVersion none (some "3.30.0") "3.30.0" = ("3.30.0", false)) ∧
    (resolveBackendVersion none none "3.25.0" = ("3.25.0", false)) :=
  c2_version_resolution_amended "3.30.0" "3.25.0"

/-! ## Canonical hash (C8)

Modelled from the spec: the hash implementation (`IDSBase._xxhash`, called
by `calc_hash` in src/imaspy/util.py line 399) is not part of the provided
sources; the algorithm is modelled from the step-by-step description in the
`calc_hash` docstring (src/imaspy/util.py lines 340-389) and spec section
4.5: leaf values hash their byte encoding, arrays-of-structures hash their
length followed by the element digests in order, and structures sort their
children by name, drop empty children, always drop
`ids_properties/version_put`, and hash the concatenation of (name bytes,
child digest) pairs.

Modelling choices: bytes are unbounded `Nat` tokens; the 8-byte xxh3_64
digest of a child and the 8-byte length word are single opaque tokens; the
hash function `H` is an explicit parameter (instantiated with an injective
encoding in the witnesses, mirroring the docstring's treatment of the hash
as collision-free); only string and 32-bit-integer leaves are modelled
(FLT/CPX leaves are floating point).  A tree is one flattened inductive:
array-of-structures element lists and structure children lists are
constructor chains, so ordinary structural induction applies. -/

inductive HNode where
  | str0d (v : List Nat)
  | int0d (v : Int)
  | arr1d (v : List Int)
  | aosNil
  | aosCons (elt : HNode) (rest : HNode)
  | structNil
  | structCons (name : String) (child : HNode) (rest : HNode)
  deriving DecidableEq, Repr

/-- Emptiness, per the docstring's rules: `STR_0D` empty iff `""`, `INT_0D`
empty iff `EMPTY_INT`, ND arrays empty iff zero length, an AoS empty iff
length 0, a structure empty iff all children are empty. -/
def nodeEmpty : HNode → Bool
  | .str0d v => v.isEmpty
  | .int0d v => v == EMPTY_INT
  | .arr1d v => v.isEmpty
  | .aosNil => true
  | .aosCons _ _ => false
  | .structNil => true
  | .structCons _ c rest => nodeEmpty c && nodeEmpty rest

def aosLen : HNode → Nat
  | .aosCons _ rest => aosLen rest + 1
  | _ => 0

/-- The 32-bit little-endian encoding of an `INT_0D` value. -/
def bytes4 (v : Int) : List Nat :=
  let n := (v % (2 ^ 32 : Int)).toNat
  [n % 256, n / 256 % 256, n / 65536 % 256, n / 16777216 % 256]

/-- The 64-bit little-endian length word, as a single token. -/
def bytes8 (n : Nat) : List Nat := [n % 2 ^ 64]

/-- ND-array encoding: rank byte, shape, then the data. -/
def arrBytes (v : List Int) : List Nat :=
  1 :: (bytes8 v.length ++ (v.map bytes4).flatten)

/-- UTF-8 bytes of a child name (token-per-codepoint model). -/
def strBytes (s : String) : List Nat := s.data.map Char.toNat

def charsLe : List Char → List Char → Bool
  | [], _ => true
  | _ :: _, [] => false
  | a :: as, b :: bs => a.toNat < b.toNat || (a.toNat == b.toNat && charsLe as bs)

def strLe (a b : String) : Bool := charsLe a.data b.data

/-- Insertion into a name-sorted structure-children chain. -/
def insertCh (n : String) (c : HNode) : HNode → HNode
  | .structCons m d rest =>
    if strLe n m then .structCons n c (.structCons m d rest)
    else .structCons m d (insertCh n c rest)
  | other => .structCons n c other

/-- Alphabetical sort of a structure-children chain (docstring step 3a). -/
def sortCh : HNode → HNode
  | .structCons n c rest => insertCh n c (sortCh rest)
  | other => other

mutual

/-- Fuel-indexed hash.  `pfx` is the path of the node being hashed, used
only to drop the child `version_put` of the structure at path
`ids_properties` (docstring step 3c); array-of-structures elements keep
their array's path.  Sufficient fuel (`depthN`) makes the result
fuel-independent. -/
def hashNF (H : List Nat → Nat) : Nat → List String → HNode → Nat
  | 0, _, _ => 0
  | _ + 1, _, .str0d v => H v
  | _ + 1, _, .int0d v => H (bytes4 v)
  | _ + 1, _, .arr1d v => H (arrBytes v)
  | f + 1, pfx, .aosNil => H (aosLen .aosNil :: aosContent H f pfx .aosNil)
  | f + 1, pfx, .aosCons e r =>
    H (aosLen (.aosCons e r) :: aosContent H f pfx (.aosCons e r))
  | f + 1, pfx, .structNil => H (structContent H f pfx (sortCh .structNil))
  | f + 1, pfx, .structCons n c r =>
    H (structContent H f pfx (sortCh (.structCons n c r)))

def aosContent (H : List Nat → Nat) : Nat → List String → HNode → List Nat
  | f, pfx, .aosCons e rest => hashNF H f pfx e :: aosContent H f pfx rest
  | _, _, _ => []

def structContent (H : List Nat → Nat) : Nat → List String → HNode → List Nat
  | f, pfx, .structCons n c rest =>
    if nodeEmpty c || (pfx == ["ids_properties"] && n == "version_put") then
      structContent H f pfx rest
    else
      strBytes n ++ hashNF H f (pfx ++ [n]) c :: structContent H f pfx rest
  | _, _, _ => []

end

/-- Fuel sufficient to hash a node: 1 for the node itself plus the fuel of
the deepest child. -/
def depthN : HNode → Nat
  | .aosCons e rest => max (depthN e + 1) (depthN rest)
  | .structCons _ c rest => max (depthN c + 1) (depthN rest)
  | _ => 1

/-- The hash of a whole tree (`calc_hash`): hash at the root path with
sufficient fuel. -/
def hashTree (H : List Nat → Nat) (t : HNode) : Nat :=
  hashNF H (depthN t) [] t

mutual

/-- Hash-equivalence of trees: same shape and names, equal leaf values,
except that any pair of corresponding *empty* children may differ
arbitrarily, and the child `version_put` of the structure at path
`ids_properties` may differ as long as its emptiness status is the same on
both sides (a `version_put` difference that flips the emptiness of
`ids_properties` as a whole changes the hash, because the emptiness of
`ids_properties` is evaluated by its *parent* before `version_put` is
dropped). -/
def equivN (pfx : List String) : HNode → HNode → Bool
  | .str0d v, .str0d w => v == w
  | .int0d v, .int0d w => v == w
  | .arr1d v, .arr1d w => v == w
  | .aosNil, .aosNil => true
  | .aosCons e r, .aosCons e' r' => equivN pfx e e' && equivN pfx r r'
  | .structNil, .structNil => true
  | .structCons n c r, .structCons n' c' r' =>
    n == n' && childSlotRel pfx n c c' && equivN pfx r r'
  | _, _ => false

/-- How one structure-child slot may relate: dropped `version_put` slot
with matching emptiness, both-empty slot, or recursively equivalent. -/
def childSlotRel (pfx : List String) (n : String) (c c' : HNode) : Bool :=
  (pfx == ["ids_properties"] && n == "version_put" && nodeEmpty c == nodeEmpty c')
    || (nodeEmpty c && nodeEmpty c')
    || equivN (pfx ++ [n]) c c'

end

/-- One step of a path into a tree: a structure field or an AoS index. -/
inductive HStep where
  | field (n : String)
  | idx (i : Nat)
  deriving DecidableEq, Repr

def getCh : HNode → String → Option HNode
  | .structCons m c rest, n => if m == n then some c else getCh rest n
  | _, _ => none

def setCh : HNode → String → HNode → HNode
  | .structCons m c rest, n, v =>
    if m == n then .structCons m v rest else .structCons m c (setCh rest n v)
  | other, _, _ => other

def getEl : HNode → Nat → Option HNode
  | .aosCons e _, 0 => some e
  | .aosCons _ rest, i + 1 => getEl rest i
  | _, _ => none

def setEl : HNode → Nat → HNode → HNode
  | .aosCons _ rest, 0, v => .aosCons v rest
  | .aosCons e rest, i + 1, v => .aosCons e (setEl rest i v)
  | other, _, _ => other

def getN : HNode → List HStep → Option HNode
  | t, [] => some t
  | t, .field n :: p =>
    match getCh t n with
    | some c => getN c p
    | none => none
  | t, .idx i :: p =>
    match getEl t i with
    | some e => getN e p
    | none => none

def setN : HNode → List HStep → HNode → Option HNode
  | _, [], v => some v
  | t, .field n :: p, v =>
    match getCh t n with
    | some c =>
      match setN c p v with
      | some c' => some (setCh t n c')
      | none => none
    | none => none
  | t, .idx i :: p, v =>
    match getEl t i with
    | some e =>
      match setN e p v with
      | some e' => some (setEl t i e')
      | none => none
    | none => none

/-- Whether a path runs into the always-dropped
`ids_properties/version_put` subtree. -/
def droppedPath (pfx : List String) : List HStep → Bool
  | [] => false
  | .field n :: p =>
    (pfx == ["ids_properties"] && n == "version_put") || droppedPath (pfx ++ [n]) p
  | .idx _ :: p => droppedPath pfx p


/-- A change of one leaf value, non-empty before and after: a string leaf
with distinct non-empty values, or a 32-bit integer leaf with distinct
non-`EMPTY_INT` values in the int32 range (the stored type is int32, so the
4-byte encoding is injective there). -/
def leafChange : HNode → HNode → Bool
  | .str0d a, .str0d b => !a.isEmpty && !b.isEmpty && a != b
  | .int0d v, .int0d w =>
    v != EMPTY_INT && w != EMPTY_INT && v != w &&
    decide (-(2 ^ 31) ≤ v) && decide (v < 2 ^ 31) &&
    decide (-(2 ^ 31) ≤ w) && decide (w < 2 ^ 31)
  | _, _ => false

/-- Injective hash function used by the witnesses (pair-encoding of token
lists). -/
def encodeL : List Nat → Nat
  | [] => 0
  | a :: l => Nat.pair a (encodeL l) + 1

theorem encodeL_injective : Function.Injective encodeL := by
  intro x y h
  induction x generalizing y with
  | nil =>
    cases y with
    | nil => rfl
    | cons b m => simp [encodeL] at h
  | cons a l ih =>
    cases y with
    | nil => simp [encodeL] at h
    | cons b m =>
      simp only [encodeL, Nat.add_right_cancel_iff] at h
      obtain ⟨h1, h2⟩ := Nat.pair_eq_pair.mp h
      rw [h1, ih h2]

theorem depthN_pos (t : HNode) : 1 ≤ depthN t := by
  cases t <;> simp [depthN] <;> omega

theorem insertCh_depth (n : String) (c : HNode) (l : HNode) :
    depthN (insertCh n c l) = max (depthN c + 1) (depthN l) := by
  induction l with
  | str0d v => simp [insertCh, depthN]
  | int0d v => simp [insertCh, depthN]
  | arr1d v => simp [insertCh, depthN]
  | aosNil => simp [insertCh, depthN]
  | aosCons e r ihe ihr => simp [insertCh, depthN]
  | structNil => simp [insertCh, depthN]
  | structCons m d rest ihd ihr =>
    by_cases hle : strLe n m
    · simp [insertCh, hle, depthN]
    · simp only [insertCh, hle, Bool.false_eq_true, if_false, depthN, ihr]
      omega

theorem sortCh_depth (t : HNode) : depthN (sortCh t) = depthN t := by
  induction t with
  | structCons n c rest ihc ihr =>
    simp [sortCh, insertCh_depth, ihr, depthN]
  | str0d v => rfl
  | int0d v => rfl
  | arr1d v => rfl
  | aosNil => rfl
  | aosCons e r ihe ihr => rfl
  | structNil => rfl

theorem aosContent_stable (H : List Nat → Nat) (f g : Nat)
    (ih : ∀ pfx t, depthN t ≤ f → depthN t ≤ g → hashNF H f pfx t = hashNF H g pfx t)
    (pfx : List String) :
    ∀ u, depthN u ≤ f + 1 → depthN u ≤ g + 1 →
      aosContent H f pfx u = aosContent H g pfx u := by
  intro u
  induction u with
  | aosCons e r ihe ihr =>
    intro h1 h2
    simp only [depthN] at h1 h2
    simp only [aosContent]
    rw [ih pfx e (by omega) (by omega), ihr (by omega) (by omega)]
  | str0d v => exact fun _ _ => by simp [aosContent]
  | int0d v => exact fun _ _ => by simp [aosContent]
  | arr1d v => exact fun _ _ => by simp [aosContent]
  | aosNil => exact fun _ _ => by simp [aosContent]
  | structNil => exact fun _ _ => by simp [aosContent]
  | structCons n c r ihc ihr => exact fun _ _ => by simp [aosContent]

theorem structContent_stable (H : List Nat → Nat) (f g : Nat)
    (ih : ∀ pfx t, depthN t ≤ f → depthN t ≤ g → hashNF H f pfx t = hashNF H g pfx t)
    (pfx : List String) :
    ∀ u, depthN u ≤ f + 1 → depthN u ≤ g + 1 →
      structContent H f pfx u = structContent H g pfx u := by
  intro u
  induction u with
  | structCons n c r ihc ihr =>
    intro h1 h2
    simp only [depthN] at h1 h2
    by_cases hd : (nodeEmpty c || (pfx == ["ids_properties"] && n == "version_put")) = true
    · simp only [structContent, hd, if_true]
      exact ihr (by omega) (by omega)
    · simp only [structContent, hd, Bool.false_eq_true, if_false]
      rw [ih (pfx ++ [n]) c (by omega) (by omega), ihr (by omega) (by omega)]
  | str0d v => exact fun _ _ => by simp [structContent]
  | int0d v => exact fun _ _ => by simp [structContent]
  | arr1d v => exact fun _ _ => by simp [structContent]
  | aosNil => exact fun _ _ => by simp [structContent]
  | aosCons e r ihe ihr => exact fun _ _ => by simp [structContent]
  | structNil => exact fun _ _ => by simp [structContent]

theorem hashNF_stable (H : List Nat → Nat) :
    ∀ f g pfx t, depthN t ≤ f → depthN t ≤ g → hashNF H f pfx t = hashNF H g pfx t := by
  intro f
  induction f with
  | zero =>
    intro g pfx t hf hg
    have := depthN_pos t
    omega
  | succ f ih =>
    intro g pfx t hf hg
    cases g with
    | zero =>
      have := depthN_pos t
      omega
    | succ g =>
      cases t with
      | str0d v => simp [hashNF]
      | int0d v => simp [hashNF]
      | arr1d v => simp [hashNF]
      | aosNil => simp [hashNF, aosContent]
      | structNil => simp [hashNF, structContent, sortCh]
      | aosCons e r =>
        simp only [hashNF]
        rw [aosContent_stable H f g (fun pfx t h1 h2 => ih g pfx t h1 h2) pfx
          (.aosCons e r) hf hg]
      | structCons n c r =>
        simp only [hashNF]
        rw [structContent_stable H f g (fun pfx t h1 h2 => ih g pfx t h1 h2) pfx
          (sortCh (.structCons n c r)) (by rw [sortCh_depth]; exact hf)
          (by rw [sortCh_depth]; exact hg)]

theorem equiv_nodeEmpty (t : HNode) : ∀ (pfx : List String) (t' : HNode),
    equivN pfx t t' = true → nodeEmpty t = nodeEmpty t' := by
  induction t with
  | str0d v =>
    intro pfx t' h
    cases t' <;> simp only [equivN, Bool.false_eq_true, beq_iff_eq] at h
    subst h
    rfl
  | int0d v =>
    intro pfx t' h
    cases t' <;> simp only [equivN, Bool.false_eq_true, beq_iff_eq] at h
    subst h
    rfl
  | arr1d v =>
    intro pfx t' h
    cases t' <;> simp only [equivN, Bool.false_eq_true, beq_iff_eq] at h
    subst h
    rfl
  | aosNil =>
    intro pfx t' h
    cases t' <;> simp only [equivN, Bool.false_eq_true] at h
    rfl
  | aosCons e r ihe ihr =>
    intro pfx t' h
    cases t' <;> simp only [equivN, Bool.false_eq_true, Bool.and_eq_true] at h
    rfl
  | structNil =>
    intro pfx t' h
    cases t' <;> simp only [equivN, Bool.false_eq_true] at h
    rfl
  | structCons n c r ihc ihr =>
    intro pfx t' h
    cases t' <;> simp only [equivN, Bool.false_eq_true, Bool.and_eq_true, beq_iff_eq] at h
    rename_i n' c' r'
    obtain ⟨⟨hn, hslot⟩, hrest⟩ := h
    subst hn
    have hce : nodeEmpty c = nodeEmpty c' := by
      simp only [childSlotRel, Bool.or_eq_true] at hslot
      rcases hslot with (hvp | hboth) | he
      · simp only [Bool.and_eq_true] at hvp
        exact eq_of_beq hvp.2
      · simp only [Bool.and_eq_true] at hboth
        rw [hboth.1, hboth.2]
      · exact ihc (pfx ++ [n]) c' he
    simp only [nodeEmpty, hce, ihr pfx r' hrest]

theorem childSlotRel_nodeEmpty (pfx : List String) (n : String) (c c' : HNode)
    (h : childSlotRel pfx n c c' = true) : nodeEmpty c = nodeEmpty c' := by
  simp only [childSlotRel, Bool.or_eq_true] at h
  rcases h with (hvp | hboth) | he
  · simp only [Bool.and_eq_true] at hvp
    exact eq_of_beq hvp.2
  · simp only [Bool.and_eq_true] at hboth
    rw [hboth.1, hboth.2]
  · exact equiv_nodeEmpty c (pfx ++ [n]) c' he

theorem insertCh_rel (pfx : List String) (n : String) (c c' : HNode)
    (hslot : childSlotRel pfx n c c' = true) :
    ∀ l l', equivN pfx l l' = true →
      equivN pfx (insertCh n c l) (insertCh n c' l') = true := by
  intro l
  induction l with
  | structCons m d r ihd ihr =>
    intro l' h
    cases l' <;> simp only [equivN, Bool.false_eq_true, Bool.and_eq_true, beq_iff_eq] at h
    rename_i m' d' r'
    obtain ⟨⟨hm, hslot2⟩, hrest⟩ := h
    subst hm
    by_cases hle : strLe n m
    · simp only [insertCh, hle, if_true]
      simp [equivN, hslot, hslot2, hrest]
    · simp only [insertCh, hle, Bool.false_eq_true, if_false]
      simp [equivN, hslot2, ihr r' hrest]
  | str0d v =>
    intro l' h
    cases l' <;> simp only [equivN, Bool.false_eq_true, beq_iff_eq] at h
    subst h
    simp [insertCh, equivN, hslot]
  | int0d v =>
    intro l' h
    cases l' <;> simp only [equivN, Bool.false_eq_true, beq_iff_eq] at h
    subst h
    simp [insertCh, equivN, hslot]
  | arr1d v =>
    intro l' h
    cases l' <;> simp only [equivN, Bool.false_eq_true, beq_iff_eq] at h
    subst h
    simp [insertCh, equivN, hslot]
  | aosNil =>
    intro l' h
    cases l' <;> simp only [equivN, Bool.false_eq_true] at h
    simp [insertCh, equivN, hslot]
  | aosCons e r ihe ihr =>
    intro l' h
    cases l' <;> simp only [equivN, Bool.false_eq_true, Bool.and_eq_true] at h
    rename_i e' r'
    simp [insertCh, equivN, hslot, h.1, h.2]
  | structNil =>
    intro l' h
    cases l' <;> simp only [equivN, Bool.false_eq_true] at h
    simp [insertCh, equivN, hslot]

theorem sortCh_rel (pfx : List String) : ∀ t t', equivN pfx t t' = true →
    equivN pfx (sortCh t) (sortCh t') = true := by
  intro t
  induction t with
  | structCons n c r ihc ihr =>
    intro t' h
    cases t' <;> simp only [equivN, Bool.false_eq_true, Bool.and_eq_true, beq_iff_eq] at h
    rename_i n' c' r'
    obtain ⟨⟨hn, hslot⟩, hrest⟩ := h
    subst hn
    simp only [sortCh]
    exact insertCh_rel pfx n c c' hslot (sortCh r) (sortCh r') (ihr r' hrest)
  | str0d v =>
    intro t' h
    cases t' <;> simp only [equivN, Bool.false_eq_true, beq_iff_eq] at h
    subst h
    simp [sortCh, equivN]
  | int0d v =>
    intro t' h
    cases t' <;> simp only [equivN, Bool.false_eq_true, beq_iff_eq] at h
    subst h
    simp [sortCh, equivN]
  | arr1d v =>
    intro t' h
    cases t' <;> simp only [equivN, Bool.false_eq_true, beq_iff_eq] at h
    subst h
    simp [sortCh, equivN]
  | aosNil =>
    intro t' h
    cases t' <;> simp only [equivN, Bool.false_eq_true] at h
    simp [sortCh, equivN]
  | aosCons e r ihe ihr =>
    intro t' h
    cases t' <;> simp only [equivN, Bool.false_eq_true, Bool.and_eq_true] at h
    rename_i e' r'
    simp [sortCh, equivN, h.1, h.2]
  | structNil =>
    intro t' h
    cases t' <;> simp only [equivN, Bool.false_eq_true] at h
    simp [sortCh, equivN]

theorem aosContent_equiv (H : List Nat → Nat) (f : Nat)
    (ih : ∀ pfx t t', equivN pfx t t' = true → hashNF H f pfx t = hashNF H f pfx t')
    (pfx : List String) :
    ∀ t t', equivN pfx t t' = true →
      aosLen t = aosLen t' ∧ aosContent H f pfx t = aosContent H f pfx t' := by
  intro t
  induction t with
  | aosCons e r ihe ihr =>
    intro t' h
    cases t' <;> simp only [equivN, Bool.false_eq_true, Bool.and_eq_true] at h
    rename_i e' r'
    obtain ⟨h1, h2⟩ := h
    obtain ⟨hl, hc⟩ := ihr r' h2
    constructor
    · simp [aosLen, hl]
    · simp only [aosContent]
      rw [ih pfx e e' h1, hc]
  | str0d v =>
    intro t' h
    cases t' <;> simp only [equivN, Bool.false_eq_true, beq_iff_eq] at h
    exact ⟨by simp [aosLen], by simp [aosContent]⟩
  | int0d v =>
    intro t' h
    cases t' <;> simp only [equivN, Bool.false_eq_true, beq_iff_eq] at h
    exact ⟨by simp [aosLen], by simp [aosContent]⟩
  | arr1d v =>
    intro t' h
    cases t' <;> simp only [equivN, Bool.false_eq_true, beq_iff_eq] at h
    exact ⟨by simp [aosLen], by simp [aosContent]⟩
  | aosNil =>
    intro t' h
    cases t' <;> simp only [equivN, Bool.false_eq_true] at h
    exact ⟨by simp [aosLen], by simp [aosContent]⟩
  | structNil =>
    intro t' h
    cases t' <;> simp only [equivN, Bool.false_eq_true] at h
    exact ⟨by simp [aosLen], by simp [aosContent]⟩
  | structCons n c r ihc ihr =>
    intro t' h
    cases t' <;> simp only [equivN, Bool.false_eq_true, Bool.and_eq_true, beq_iff_eq] at h
    exact ⟨by simp [aosLen], by simp [aosContent]⟩

theorem structContent_equiv (H : List Nat → Nat) (f : Nat)
    (ih : ∀ pfx t t', equivN pfx t t' = true → hashNF H f pfx t = hashNF H f pfx t')
    (pfx : List String) :
    ∀ t t', equivN pfx t t' = true →
      structContent H f pfx t = structContent H f pfx t' := by
  intro t
  induction t with
  | structCons n c r ihc ihr =>
    intro t' h
    cases t' <;> simp only [equivN, Bool.false_eq_true, Bool.and_eq_true, beq_iff_eq] at h
    rename_i n' c' r'
    obtain ⟨⟨hn, hslot⟩, hrest⟩ := h
    subst hn
    have hce : nodeEmpty c = nodeEmpty c' := childSlotRel_nodeEmpty pfx n c c' hslot
    by_cases hd : (nodeEmpty c || (pfx == ["ids_properties"] && n == "version_put")) = true
    · have hd' : (nodeEmpty c' || (pfx == ["ids_properties"] && n == "version_put")) = true := by
        rw [← hce]
        exact hd
      simp only [structContent, hd, hd', if_true]
      exact ihr r' hrest
    · rw [Bool.not_eq_true] at hd
      have hd' : (nodeEmpty c' || (pfx == ["ids_properties"] && n == "version_put")) = false := by
        rw [← hce]
        exact hd
      simp only [Bool.or_eq_false_iff] at hd
      have hcc' : equivN (pfx ++ [n]) c c' = true := by
        simp only [childSlotRel, Bool.or_eq_true] at hslot
        rcases hslot with (hvp | hboth) | he
        · simp only [Bool.and_eq_true] at hvp
          rw [hvp.1.1, hvp.1.2] at hd
          simp at hd
        · simp only [Bool.and_eq_true] at hboth
          rw [hboth.1] at hd
          simp at hd
        · exact he
      have hdz : (nodeEmpty c || (pfx == ["ids_properties"] && n == "version_put")) = false := by
        simp [hd.1, hd.2]
      simp only [structContent, hdz, hd', Bool.false_eq_true, if_false]
      rw [ih (pfx ++ [n]) c c' hcc', ihr r' hrest]
  | str0d v =>
    intro t' h
    cases t' <;> simp only [equivN, Bool.false_eq_true, beq_iff_eq] at h
    simp [structContent]
  | int0d v =>
    intro t' h
    cases t' <;> simp only [equivN, Bool.false_eq_true, beq_iff_eq] at h
    simp [structContent]
  | arr1d v =>
    intro t' h
    cases t' <;> simp only [equivN, Bool.false_eq_true, beq_iff_eq] at h
    simp [structContent]
  | aosNil =>
    intro t' h
    cases t' <;> simp only [equivN, Bool.false_eq_true] at h
    simp [structContent]
  | aosCons e r ihe ihr =>
    intro t' h
    cases t' <;> simp only [equivN, Bool.false_eq_true, Bool.and_eq_true] at h
    simp [structContent]
  | structNil =>
    intro t' h
    cases t' <;> simp only [equivN, Bool.false_eq_true] at h
    simp [structContent]

theorem hashNF_equiv (H : List Nat → Nat) :
    ∀ f pfx t t', equivN pfx t t' = true → hashNF H f pfx t = hashNF H f pfx t' := by
  intro f
  induction f with
  | zero =>
    intro pfx t t' h
    simp [hashNF]
  | succ f ih =>
    intro pfx t t' h
    cases t with
    | str0d v =>
      cases t' <;> simp only [equivN, Bool.false_eq_true, beq_iff_eq] at h
      subst h
      rfl
    | int0d v =>
      cases t' <;> simp only [equivN, Bool.false_eq_true, beq_iff_eq] at h
      subst h
      rfl
    | arr1d v =>
      cases t' <;> simp only [equivN, Bool.false_eq_true, beq_iff_eq] at h
      subst h
      rfl
    | aosNil =>
      cases t' <;> simp only [equivN, Bool.false_eq_true] at h
      rfl
    | structNil =>
      cases t' <;> simp only [equivN, Bool.false_eq_true] at h
      rfl
    | aosCons e r =>
      cases t' <;> simp only [equivN, Bool.false_eq_true, Bool.and_eq_true] at h
      rename_i e' r'
      have hfull : equivN pfx (.aosCons e r) (.aosCons e' r') = true := by
        simp [equivN, h.1, h.2]
      obtain ⟨hl, hc⟩ := aosContent_equiv H f (fun pfx a b hb => ih pfx a b hb) pfx
        (.aosCons e r) (.aosCons e' r') hfull
      simp only [hashNF]
      rw [hl, hc]
    | structCons n c r =>
      cases t' <;> simp only [equivN, Bool.false_eq_true, Bool.and_eq_true, beq_iff_eq] at h
      rename_i n' c' r'
      obtain ⟨⟨hn, hslot⟩, hrest⟩ := h
      subst hn
      have hfull : equivN pfx (.structCons n c r) (.structCons n c' r') = true := by
        simp [equivN, hslot, hrest]
      have hs := sortCh_rel pfx _ _ hfull
      simp only [hashNF]
      exact congrArg H (structContent_equiv H f (fun pfx a b hb => ih pfx a b hb) pfx _ _ hs)

theorem leafChange_nonempty (old new : HNode) (h : leafChange old new = true) :
    nodeEmpty old = false ∧ nodeEmpty new = false := by
  cases old <;> cases new <;>
    simp only [leafChange, Bool.false_eq_true, Bool.and_eq_true, bne_iff_ne,
      decide_eq_true_eq] at h
  all_goals simp_all [nodeEmpty]

theorem getCh_depth (n : String) : ∀ (t c : HNode), getCh t n = some c →
    depthN c + 1 ≤ depthN t := by
  intro t
  induction t with
  | structCons m d r ihd ihr =>
    intro c h
    by_cases hmn : (m == n) = true
    · simp only [getCh, hmn, if_true, Option.some.injEq] at h
      subst h
      simp only [depthN]
      omega
    · simp only [getCh, hmn, Bool.false_eq_true, if_false] at h
      have := ihr c h
      simp only [depthN]
      omega
  | str0d v => intro c h; simp [getCh] at h
  | int0d v => intro c h; simp [getCh] at h
  | arr1d v => intro c h; simp [getCh] at h
  | aosNil => intro c h; simp [getCh] at h
  | aosCons e r ihe ihr => intro c h; simp [getCh] at h
  | structNil => intro c h; simp [getCh] at h

theorem setCh_depth_ge (n : String) (c₂ : HNode) : ∀ (t c : HNode), getCh t n = some c →
    depthN c₂ + 1 ≤ depthN (setCh t n c₂) := by
  intro t
  induction t with
  | structCons m d r ihd ihr =>
    intro c h
    by_cases hmn : (m == n) = true
    · simp only [setCh, hmn, if_true]
      simp only [depthN]
      omega
    · simp only [getCh, hmn, Bool.false_eq_true, if_false] at h
      simp only [setCh, hmn, Bool.false_eq_true, if_false]
      have := ihr c h
      simp only [depthN]
      omega
  | str0d v => intro c h; simp [getCh] at h
  | int0d v => intro c h; simp [getCh] at h
  | arr1d v => intro c h; simp [getCh] at h
  | aosNil => intro c h; simp [getCh] at h
  | aosCons e r ihe ihr => intro c h; simp [getCh] at h
  | structNil => intro c h; simp [getCh] at h

theorem getEl_depth : ∀ (t : HNode) (i : Nat) (e : HNode), getEl t i = some e →
    depthN e + 1 ≤ depthN t := by
  intro t
  induction t with
  | aosCons hd r ihhd ihr =>
    intro i e h
    cases i with
    | zero =>
      simp only [getEl, Option.some.injEq] at h
      subst h
      simp only [depthN]
      omega
    | succ i =>
      simp only [getEl] at h
      have := ihr i e h
      simp only [depthN]
      omega
  | str0d v => intro i e h; cases i <;> simp [getEl] at h
  | int0d v => intro i e h; cases i <;> simp [getEl] at h
  | arr1d v => intro i e h; cases i <;> simp [getEl] at h
  | aosNil => intro i e h; cases i <;> simp [getEl] at h
  | structNil => intro i e h; cases i <;> simp [getEl] at h
  | structCons m d r ihd ihr => intro i e h; cases i <;> simp [getEl] at h

theorem setEl_depth_ge (e₂ : HNode) : ∀ (t : HNode) (i : Nat) (e : HNode),
    getEl t i = some e → depthN e₂ + 1 ≤ depthN (setEl t i e₂) := by
  intro t
  induction t with
  | aosCons hd r ihhd ihr =>
    intro i e h
    cases i with
    | zero =>
      simp only [setEl]
      simp only [depthN]
      omega
    | succ i =>
      simp only [getEl] at h
      simp only [setEl]
      have := ihr i e h
      simp only [depthN]
      omega
  | str0d v => intro i e h; cases i <;> simp [getEl] at h
  | int0d v => intro i e h; cases i <;> simp [getEl] at h
  | arr1d v => intro i e h; cases i <;> simp [getEl] at h
  | aosNil => intro i e h; cases i <;> simp [getEl] at h
  | structNil => intro i e h; cases i <;> simp [getEl] at h
  | structCons m d r ihd ihr => intro i e h; cases i <;> simp [getEl] at h

theorem getCh_nonempty (n : String) : ∀ (t c : HNode), getCh t n = some c →
    nodeEmpty c = false → nodeEmpty t = false := by
  intro t
  induction t with
  | structCons m d r ihd ihr =>
    intro c h hc
    by_cases hmn : (m == n) = true
    · simp only [getCh, hmn, if_true, Option.some.injEq] at h
      subst h
      simp [nodeEmpty, hc]
    · simp only [getCh, hmn, Bool.false_eq_true, if_false] at h
      simp [nodeEmpty, ihr c h hc]
  | str0d v => intro c h; simp [getCh] at h
  | int0d v => intro c h; simp [getCh] at h
  | arr1d v => intro c h; simp [getCh] at h
  | aosNil => intro c h; simp [getCh] at h
  | aosCons e r ihe ihr => intro c h; simp [getCh] at h
  | structNil => intro c h; simp [getCh] at h

theorem setCh_nonempty (n : String) (c₂ : HNode) : ∀ (t c : HNode), getCh t n = some c →
    nodeEmpty c₂ = false → nodeEmpty (setCh t n c₂) = false := by
  intro t
  induction t with
  | structCons m d r ihd ihr =>
    intro c h hc
    by_cases hmn : (m == n) = true
    · simp only [setCh, hmn, if_true]
      simp [nodeEmpty, hc]
    · simp only [getCh, hmn, Bool.false_eq_true, if_false] at h
      simp only [setCh, hmn, Bool.false_eq_true, if_false]
      simp [nodeEmpty, ihr c h hc]
  | str0d v => intro c h; simp [getCh] at h
  | int0d v => intro c h; simp [getCh] at h
  | arr1d v => intro c h; simp [getCh] at h
  | aosNil => intro c h; simp [getCh] at h
  | aosCons e r ihe ihr => intro c h; simp [getCh] at h
  | structNil => intro c h; simp [getCh] at h

theorem getN_nonempty : ∀ (p : List HStep) (t s : HNode), getN t p = some s →
    nodeEmpty s = false → nodeEmpty t = false := by
  intro p
  induction p with
  | nil =>
    intro t s h hs
    simp only [getN, Option.some.injEq] at h
    rw [h]
    exact hs
  | cons st p ih =>
    intro t s h hs
    cases st with
    | field n =>
      rcases hgc : getCh t n with _ | c
      · rw [getN, hgc] at h
        simp at h
      · rw [getN, hgc] at h
        exact getCh_nonempty n t c hgc (ih c s h hs)
    | idx i =>
      rcases hge : getEl t i with _ | e
      · rw [getN, hge] at h
        simp at h
      · rw [getN, hge] at h
        cases t <;> first
          | rfl
          | (cases i <;> simp [getEl] at hge)

theorem setN_nonempty : ∀ (p : List HStep) (t s t' : HNode), setN t p s = some t' →
    nodeEmpty s = false → nodeEmpty t' = false := by
  intro p
  induction p with
  | nil =>
    intro t s t' h hs
    simp only [setN, Option.some.injEq] at h
    rw [← h]
    exact hs
  | cons st p ih =>
    intro t s t' h hs
    cases st with
    | field n =>
      rcases hgc : getCh t n with _ | c
      · rw [setN, hgc] at h
        simp at h
      · rw [setN, hgc] at h
        have h' : (match setN c p s with
            | some c' => some (setCh t n c')
            | none => none) = some t' := h
        rcases hsn : setN c p s with _ | c₂
        · rw [hsn] at h'
          simp at h'
        · rw [hsn] at h'
          simp only [Option.some.injEq] at h'
          rw [← h']
          exact setCh_nonempty n c₂ t c hgc (ih c s c₂ hsn hs)
    | idx i =>
      rcases hge : getEl t i with _ | e
      · rw [setN, hge] at h
        simp at h
      · rw [setN, hge] at h
        have h' : (match setN e p s with
            | some e' => some (setEl t i e')
            | none => none) = some t' := h
        rcases hsn : setN e p s with _ | e₂
        · rw [hsn] at h'
          simp at h'
        · rw [hsn] at h'
          simp only [Option.some.injEq] at h'
          rw [← h']
          cases t <;> first
            | (cases i <;> rfl)
            | (cases i <;> simp [getEl] at hge)

theorem charsLe_refl : ∀ l : List Char, charsLe l l = true := by
  intro l
  induction l with
  | nil => rfl
  | cons a as ih => simp [charsLe, ih]

theorem strLe_refl (s : String) : strLe s s = true :=
  charsLe_refl s.data

theorem getCh_insertCh_self (n : String) (c : HNode) :
    ∀ l, getCh (insertCh n c l) n = some c := by
  intro l
  induction l with
  | structCons m d rest ihd ihr =>
    by_cases hle : strLe n m
    · simp [insertCh, hle, getCh]
    · have hmn : (m == n) = false := by
        by_contra hcon
        rw [Bool.not_eq_false] at hcon
        have hm : m = n := eq_of_beq hcon
        subst hm
        exact hle (strLe_refl m)
      simp [insertCh, hle, getCh, hmn, ihr]
  | str0d v => simp [insertCh, getCh]
  | int0d v => simp [insertCh, getCh]
  | arr1d v => simp [insertCh, getCh]
  | aosNil => simp [insertCh, getCh]
  | aosCons e r ihe ihr => simp [insertCh, getCh]
  | structNil => simp [insertCh, getCh]

theorem getCh_insertCh_other (n m : String) (hmn : (m == n) = false) (d : HNode) :
    ∀ l, getCh (insertCh m d l) n = getCh l n := by
  intro l
  induction l with
  | structCons m2 d2 rest ihd ihr =>
    by_cases hle : strLe m m2
    · simp [insertCh, hle, getCh, hmn]
    · by_cases h2 : (m2 == n) = true
      · simp [insertCh, hle, getCh, h2]
      · simp [insertCh, hle, getCh, h2, ihr]
  | str0d v => simp [insertCh, getCh, hmn]
  | int0d v => simp [insertCh, getCh, hmn]
  | arr1d v => simp [insertCh, getCh, hmn]
  | aosNil => simp [insertCh, getCh, hmn]
  | aosCons e r ihe ihr => simp [insertCh, getCh, hmn]
  | structNil => simp [insertCh, getCh, hmn]

theorem setCh_insertCh_self (n : String) (c c' : HNode) :
    ∀ l, setCh (insertCh n c l) n c' = insertCh n c' l := by
  intro l
  induction l with
  | structCons m d rest ihd ihr =>
    by_cases hle : strLe n m
    · simp [insertCh, hle, setCh]
    · have hmn : (m == n) = false := by
        by_contra hcon
        rw [Bool.not_eq_false] at hcon
        have hm : m = n := eq_of_beq hcon
        subst hm
        exact hle (strLe_refl m)
      simp [insertCh, hle, setCh, hmn, ihr]
  | str0d v => simp [insertCh, setCh]
  | int0d v => simp [insertCh, setCh]
  | arr1d v => simp [insertCh, setCh]
  | aosNil => simp [insertCh, setCh]
  | aosCons e r ihe ihr => simp [insertCh, setCh]
  | structNil => simp [insertCh, setCh]

theorem setCh_insertCh_other (n m : String) (hmn : (m == n) = false) (d c' : HNode) :
    ∀ l, setCh (insertCh m d l) n c' = insertCh m d (setCh l n c') := by
  intro l
  induction l with
  | structCons m2 d2 rest ihd ihr =>
    by_cases hle : strLe m m2
    · by_cases h2 : (m2 == n) = true
      · simp [insertCh, hle, setCh, hmn, h2]
      · simp [insertCh, hle, setCh, hmn, h2]
    · by_cases h2 : (m2 == n) = true
      · simp [insertCh, hle, setCh, hmn, h2]
      · simp [insertCh, hle, setCh, hmn, h2, ihr]
  | str0d v => simp [insertCh, setCh, hmn]
  | int0d v => simp [insertCh, setCh, hmn]
  | arr1d v => simp [insertCh, setCh, hmn]
  | aosNil => simp [insertCh, setCh, hmn]
  | aosCons e r ihe ihr => simp [insertCh, setCh, hmn]
  | structNil => simp [insertCh, setCh, hmn]

theorem getCh_sortCh (n : String) : ∀ l, getCh (sortCh l) n = getCh l n := by
  intro l
  induction l with
  | structCons m d rest ihd ihr =>
    by_cases hmn : (m == n) = true
    · have hm : m = n := eq_of_beq hmn
      subst hm
      simp only [sortCh]
      rw [getCh_insertCh_self]
      simp [getCh]
    · rw [Bool.not_eq_true] at hmn
      simp only [sortCh]
      rw [getCh_insertCh_other n m hmn, ihr]
      simp [getCh, hmn]
  | str0d v => rfl
  | int0d v => rfl
  | arr1d v => rfl
  | aosNil => rfl
  | aosCons e r ihe ihr => rfl
  | structNil => rfl

theorem sortCh_setCh (n : String) (c' : HNode) :
    ∀ l, sortCh (setCh l n c') = setCh (sortCh l) n c' := by
  intro l
  induction l with
  | structCons m d rest ihd ihr =>
    by_cases hmn : (m == n) = true
    · have hm : m = n := eq_of_beq hmn
      subst hm
      simp only [setCh, beq_self_eq_true, if_true, sortCh]
      rw [setCh_insertCh_self]
    · rw [Bool.not_eq_true] at hmn
      simp only [setCh, hmn, Bool.false_eq_true, if_false, sortCh]
      rw [ihr, setCh_insertCh_other n m hmn]
  | str0d v => rfl
  | int0d v => rfl
  | arr1d v => rfl
  | aosNil => rfl
  | aosCons e r ihe ihr => rfl
  | structNil => rfl

theorem append_cons_ne {x y : Nat} (hxy : x ≠ y) (A R R' : List Nat) :
    A ++ x :: R ≠ A ++ y :: R' := by
  intro h
  have h2 : x :: R = y :: R' := List.append_inj_right h rfl
  injection h2 with hxy2 hr
  exact hxy hxy2

theorem structContent_ne (H : List Nat → Nat) (f : Nat) (pfx : List String) (n : String)
    (c c₂ : HNode) (hvp : (pfx == ["ids_properties"] && n == "version_put") = false)
    (hnec : nodeEmpty c = false) (hnec₂ : nodeEmpty c₂ = false)
    (hne : hashNF H f (pfx ++ [n]) c ≠ hashNF H f (pfx ++ [n]) c₂) :
    ∀ l, getCh l n = some c →
      structContent H f pfx l ≠ structContent H f pfx (setCh l n c₂) := by
  intro l
  induction l with
  | structCons m d rest ihd ihr =>
    intro hget
    by_cases hmn : (m == n) = true
    · have hm : m = n := eq_of_beq hmn
      subst hm
      simp only [getCh, beq_self_eq_true, if_true, Option.some.injEq] at hget
      subst hget
      simp only [setCh, beq_self_eq_true, if_true]
      have hcond : (nodeEmpty d || (pfx == ["ids_properties"] && m == "version_put")) = false := by
        simp only [Bool.or_eq_false_iff]
        exact ⟨hnec, hvp⟩
      have hcond₂ : (nodeEmpty c₂ || (pfx == ["ids_properties"] && m == "version_put")) = false := by
        simp only [Bool.or_eq_false_iff]
        exact ⟨hnec₂, hvp⟩
      simp only [structContent, hcond, hcond₂, Bool.false_eq_true, if_false]
      exact append_cons_ne hne (strBytes m) _ _
    · rw [Bool.not_eq_true] at hmn
      simp only [getCh, hmn, Bool.false_eq_true, if_false] at hget
      simp only [setCh, hmn, Bool.false_eq_true, if_false]
      by_cases hd : (nodeEmpty d || (pfx == ["ids_properties"] && m == "version_put")) = true
      · simp only [structContent, hd, if_true]
        exact ihr hget
      · rw [Bool.not_eq_true] at hd
        simp only [structContent, hd, Bool.false_eq_true, if_false]
        intro heq
        have h2 := List.append_inj_right heq rfl
        injection h2 with hh ht
        exact ihr hget ht
  | str0d v => intro hget; simp [getCh] at hget
  | int0d v => intro hget; simp [getCh] at hget
  | arr1d v => intro hget; simp [getCh] at hget
  | aosNil => intro hget; simp [getCh] at hget
  | aosCons e r ihe ihr => intro hget; simp [getCh] at hget
  | structNil => intro hget; simp [getCh] at hget

theorem aosContent_ne (H : List Nat → Nat) (f : Nat) (pfx : List String) (e₂ : HNode) :
    ∀ (l : HNode) (i : Nat) (e : HNode), getEl l i = some e →
      hashNF H f pfx e ≠ hashNF H f pfx e₂ →
      aosContent H f pfx l ≠ aosContent H f pfx (setEl l i e₂) := by
  intro l
  induction l with
  | aosCons hd rest ihhd ihr =>
    intro i e hget hne
    cases i with
    | zero =>
      simp only [getEl, Option.some.injEq] at hget
      subst hget
      simp only [setEl, aosContent]
      intro heq
      injection heq with h1 h2
      exact hne h1
    | succ i =>
      simp only [getEl] at hget
      simp only [setEl, aosContent]
      intro heq
      injection heq with h1 h2
      exact ihr i e hget hne h2
  | str0d v => intro i e hget hne; cases i <;> simp [getEl] at hget
  | int0d v => intro i e hget hne; cases i <;> simp [getEl] at hget
  | arr1d v => intro i e hget hne; cases i <;> simp [getEl] at hget
  | aosNil => intro i e hget hne; cases i <;> simp [getEl] at hget
  | structNil => intro i e hget hne; cases i <;> simp [getEl] at hget
  | structCons m d r ihd ihr => intro i e hget hne; cases i <;> simp [getEl] at hget

theorem aosLen_setEl (e₂ : HNode) : ∀ (l : HNode) (i : Nat) (e : HNode),
    getEl l i = some e → aosLen (setEl l i e₂) = aosLen l := by
  intro l
  induction l with
  | aosCons hd rest ihhd ihr =>
    intro i e hget
    cases i with
    | zero => simp [setEl, aosLen]
    | succ i =>
      simp only [getEl] at hget
      simp [setEl, aosLen, ihr i e hget]
  | str0d v => intro i e hget; cases i <;> simp [getEl] at hget
  | int0d v => intro i e hget; cases i <;> simp [getEl] at hget
  | arr1d v => intro i e hget; cases i <;> simp [getEl] at hget
  | aosNil => intro i e hget; cases i <;> simp [getEl] at hget
  | structNil => intro i e hget; cases i <;> simp [getEl] at hget
  | structCons m d r ihd ihr => intro i e hget; cases i <;> simp [getEl] at hget

theorem setCh_shape (m : String) (d r : HNode) (n : String) (c₂ : HNode) :
    ∃ m' d' r', setCh (.structCons m d r) n c₂ = .structCons m' d' r' := by
  by_cases h : (m == n) = true
  · exact ⟨m, c₂, r, by simp [setCh, h]⟩
  · rw [Bool.not_eq_true] at h
    exact ⟨m, d, setCh r n c₂, by simp [setCh, h]⟩

theorem setEl_shape (hd r : HNode) (i : Nat) (e₂ : HNode) :
    ∃ x y, setEl (.aosCons hd r) i e₂ = .aosCons x y := by
  cases i with
  | zero => exact ⟨e₂, r, rfl⟩
  | succ i => exact ⟨hd, setEl r i e₂, rfl⟩

theorem bytes4_inj_int32 (v w : Int) (hv1 : -(2 ^ 31) ≤ v) (hv2 : v < 2 ^ 31)
    (hw1 : -(2 ^ 31) ≤ w) (hw2 : w < 2 ^ 31) (h : bytes4 v = bytes4 w) : v = w := by
  simp only [bytes4, List.cons.injEq, and_true] at h
  omega

theorem hashNF_ne_of_set (H : List Nat → Nat) (hinj : Function.Injective H) :
    ∀ (p : List HStep) (f : Nat) (pfx : List String) (t t' old new : HNode),
      getN t p = some old → setN t p new = some t' →
      leafChange old new = true → droppedPath pfx p = false →
      depthN t ≤ f → depthN t' ≤ f →
      hashNF H f pfx t ≠ hashNF H f pfx t' := by
  intro p
  induction p with
  | nil =>
    intro f pfx t t' old new hget hset hlc hdp hdt hdt'
    simp only [getN, Option.some.injEq] at hget
    simp only [setN, Option.some.injEq] at hset
    subst hget
    subst hset
    obtain ⟨f1, rfl⟩ : ∃ f1, f = f1 + 1 := ⟨f - 1, by have := depthN_pos t; omega⟩
    cases t with
    | str0d a =>
      cases new with
      | str0d b =>
        simp only [leafChange, Bool.and_eq_true, bne_iff_ne] at hlc
        intro heq
        simp only [hashNF] at heq
        exact hlc.2 (hinj heq)
      | int0d w => simp [leafChange] at hlc
      | arr1d w => simp [leafChange] at hlc
      | aosNil => simp [leafChange] at hlc
      | aosCons e r => simp [leafChange] at hlc
      | structNil => simp [leafChange] at hlc
      | structCons m d r => simp [leafChange] at hlc
    | int0d v =>
      cases new with
      | int0d w =>
        simp only [leafChange, Bool.and_eq_true, bne_iff_ne, decide_eq_true_eq] at hlc
        obtain ⟨⟨⟨⟨⟨⟨h1, h2⟩, h3⟩, h4⟩, h5⟩, h6⟩, h7⟩ := hlc
        intro heq
        simp only [hashNF] at heq
        exact h3 (bytes4_inj_int32 v w h4 h5 h6 h7 (hinj heq))
      | str0d b => simp [leafChange] at hlc
      | arr1d w => simp [leafChange] at hlc
      | aosNil => simp [leafChange] at hlc
      | aosCons e r => simp [leafChange] at hlc
      | structNil => simp [leafChange] at hlc
      | structCons m d r => simp [leafChange] at hlc
    | arr1d v => cases new <;> simp [leafChange] at hlc
    | aosNil => cases new <;> simp [leafChange] at hlc
    | aosCons e r => cases new <;> simp [leafChange] at hlc
    | structNil => cases new <;> simp [leafChange] at hlc
    | structCons m d r => cases new <;> simp [leafChange] at hlc
  | cons st p ih =>
    intro f pfx t t' old new hget hset hlc hdp hdt hdt'
    cases st with
    | field n =>
      rcases hgc : getCh t n with _ | c
      · rw [getN, hgc] at hget
        simp at hget
      · rw [getN, hgc] at hget
        have hget' : getN c p = some old := hget
        rw [setN, hgc] at hset
        have hset2 : (match setN c p new with
            | some c' => some (setCh t n c')
            | none => none) = some t' := hset
        rcases hsn : setN c p new with _ | c₂
        · rw [hsn] at hset2
          simp at hset2
        · rw [hsn] at hset2
          simp only [Option.some.injEq] at hset2
          subst hset2
          simp only [droppedPath, Bool.or_eq_false_iff] at hdp
          obtain ⟨hvp, hdp'⟩ := hdp
          obtain ⟨hneo, hnen⟩ := leafChange_nonempty old new hlc
          have hnec : nodeEmpty c = false := getN_nonempty p c old hget' hneo
          have hnec₂ : nodeEmpty c₂ = false := setN_nonempty p c new c₂ hsn hnen
          have hdc1 := getCh_depth n t c hgc
          obtain ⟨f1, rfl⟩ : ∃ f1, f = f1 + 1 := ⟨f - 1, by omega⟩
          have hdc : depthN c ≤ f1 := by omega
          have hdc₂ : depthN c₂ ≤ f1 := by
            have := setCh_depth_ge n c₂ t c hgc
            omega
          have hih := ih f1 (pfx ++ [n]) c c₂ old new hget' hsn hlc hdp' hdc hdc₂
          obtain ⟨m, d, r, rfl⟩ : ∃ m d r, t = .structCons m d r := by
            cases t <;> first
              | exact ⟨_, _, _, rfl⟩
              | simp [getCh] at hgc
          obtain ⟨m', d', r', hshape⟩ := setCh_shape m d r n c₂
          rw [hshape]
          simp only [hashNF]
          rw [← hshape]
          intro heq
          have hceq := hinj heq
          rw [sortCh_setCh n c₂] at hceq
          exact structContent_ne H f1 pfx n c c₂ hvp hnec hnec₂ hih
            (sortCh (.structCons m d r)) (by rw [getCh_sortCh]; exact hgc) hceq
    | idx i =>
      rcases hge : getEl t i with _ | e
      · rw [getN, hge] at hget
        simp at hget
      · rw [getN, hge] at hget
        have hget' : getN e p = some old := hget
        rw [setN, hge] at hset
        have hset2 : (match setN e p new with
            | some e' => some (setEl t i e')
            | none => none) = some t' := hset
        rcases hsn : setN e p new with _ | e₂
        · rw [hsn] at hset2
          simp at hset2
        · rw [hsn] at hset2
          simp only [Option.some.injEq] at hset2
          subst hset2
          simp only [droppedPath] at hdp
          have hde1 := getEl_depth t i e hge
          obtain ⟨f1, rfl⟩ : ∃ f1, f = f1 + 1 := ⟨f - 1, by omega⟩
          have hde : depthN e ≤ f1 := by omega
          have hde₂ : depthN e₂ ≤ f1 := by
            have := setEl_depth_ge e₂ t i e hge
            omega
          have hih := ih f1 pfx e e₂ old new hget' hsn hlc hdp hde hde₂
          obtain ⟨hd2, r, rfl⟩ : ∃ hd2 r, t = .aosCons hd2 r := by
            cases t <;> first
              | exact ⟨_, _, rfl⟩
              | (cases i <;> simp [getEl] at hge)
          obtain ⟨x, y, hshape⟩ := setEl_shape hd2 r i e₂
          rw [hshape]
          simp only [hashNF]
          rw [← hshape]
          intro heq
          have hceq := hinj heq
          injection hceq with hlen hcont
          exact aosContent_ne H f1 pfx e₂ (.aosCons hd2 r) i e hge hih hcont

/-- C8 (amended): for an injective digest function, (i) two trees related by
`equivN` — equal except at empty children and at the
`ids_properties/version_put` subtree, with the emptiness of `version_put`
itself preserved — have equal hashes (empty children and `version_put` are
dropped); and (ii) changing the value of one non-empty leaf (string, or
int32-range integer; the leaf stays non-empty, and does not lie inside the
dropped `ids_properties/version_put` subtree) changes the hash. -/
theorem c8_hash_semantics (H : List Nat → Nat) (hinj : Function.Injective H) :
    (∀ t t', equivN [] t t' = true → hashTree H t = hashTree H t') ∧
    (∀ t t' p old new, getN t p = some old → setN t p new = some t' →
      leafChange old new = true → droppedPath [] p = false →
      hashTree H t ≠ hashTree H t') := by
  constructor
  · intro t t' h
    unfold hashTree
    rw [hashNF_stable H (depthN t) (max (depthN t) (depthN t')) [] t le_rfl
        (le_max_left _ _),
      hashNF_stable H (depthN t') (max (depthN t) (depthN t')) [] t' le_rfl
        (le_max_right _ _)]
    exact hashNF_equiv H _ [] t t' h
  · intro t t' p old new hget hset hlc hdp
    unfold hashTree
    rw [hashNF_stable H (depthN t) (max (depthN t) (depthN t')) [] t le_rfl
        (le_max_left _ _),
      hashNF_stable H (depthN t') (max (depthN t) (depthN t')) [] t' le_rfl
        (le_max_right _ _)]
    exact hashNF_ne_of_set H hinj p _ [] t t' old new hget hset hlc hdp
      (le_max_left _ _) (le_max_right _ _)

/-- C8 (counterexample): the claim "hash(T) equals hash(T') when T' is T
with a different ids_properties/version_put subtree" is false when the
`version_put` difference flips the emptiness of `ids_properties` as a
whole: here T's `version_put` holds a non-empty string, so
`ids_properties` is kept by the toplevel (hashing to the name bytes plus
the digest of the emptied content), while in T' everything is empty and
`ids_properties` is dropped, so the toplevel content is empty. -/
theorem c8_hash_counterexample :
    hashTree encodeL
        (.structCons "ids_properties"
          (.structCons "version_put" (.structCons "d" (.str0d [51]) .structNil) .structNil)
          .structNil)
      ≠ hashTree encodeL
        (.structCons "ids_properties"
          (.structCons "version_put" (.structCons "d" (.str0d []) .structNil) .structNil)
          .structNil) := by
  have hA : hashTree encodeL
      (.structCons "ids_properties"
        (.structCons "version_put" (.structCons "d" (.str0d [51]) .structNil) .structNil)
        .structNil) = encodeL (strBytes "ids_properties" ++ [encodeL []]) := by
    simp [hashTree, depthN, hashNF, structContent, aosContent, sortCh, insertCh, nodeEmpty]
  have hB : hashTree encodeL
      (.structCons "ids_properties"
        (.structCons "version_put" (.structCons "d" (.str0d []) .structNil) .structNil)
        .structNil) = encodeL [] := by
    simp [hashTree, depthN, hashNF, structContent, aosContent, sortCh, insertCh, nodeEmpty]
  rw [hA, hB]
  intro heq
  have h2 := encodeL_injective heq
  simp [strBytes] at h2

theorem c8_hash_semantics_witness :
    Function.Injective encodeL ∧
    (hashTree encodeL
        (.structCons "a" (.int0d 5) (.structCons "b" (.str0d []) .structNil))
      = hashTree encodeL
        (.structCons "a" (.int0d 5) (.structCons "b" (.int0d EMPTY_INT) .structNil))) ∧
    (hashTree encodeL (.structCons "x" (.int0d 5) .structNil)
      ≠ hashTree encodeL (.structCons "x" (.int0d 6) .structNil)) :=
  ⟨encodeL_injective,
   (c8_hash_semantics encodeL encodeL_injective).1 _ _
     (by simp [equivN, childSlotRel, nodeEmpty, EMPTY_INT]),
   (c8_hash_semantics encodeL encodeL_injective).2 _ _ [HStep.field "x"]
     (.int0d 5) (.int0d 6)
     (by simp [getN, getCh])
     (by simp [setN, getCh, setCh])
     (by simp [leafChange, EMPTY_INT])
     (by simp [droppedPath])⟩
